import Mathlib

/-!
Control server: log tailing and log reset

A shallow embedding of `controlserver/app/app.go` (`openLogFile`,
`createFileTailHandler`) and `controlserver/logger/logger.go` (`ResetLogFile`),
together with the library behaviour they rely on (`os.File`, `bufio.Reader`,
`path/filepath.Match`, `filepath.Glob`).

Conventions.
* Bytes are natural numbers; `NL` is the byte `'\n'`.
* One event of the watcher is handled against one snapshot of the file system:
  the file does not change while a single event is being handled.
* `lseek` with `SEEK_CUR` / `SEEK_SET` on an open regular file is taken to
  succeed (the source ignores the errors of both calls).
* Loops of the library that the source relies on are given fuel computed from
  their arguments; `none` / `stuck` mark exhausted fuel and are proved not to
  occur.
-/

namespace ControlServer

/-! ## Bytes -/

abbrev Byte := Nat

/-- The delimiter passed to `reader.ReadString`. -/
def NL : Byte := 10

/-- The bytes of an ASCII string literal. -/
def bytes (s : String) : List Byte := s.toList.map Char.toNat

/-! ## The tailed file, as seen through an open descriptor -/

/-- File system as seen by the tail handler: file contents by inode, the inode
currently linked at `filePath` (`none` when the path does not exist), and the
next unused inode number (every inode in use is below it). -/
structure FS where
  data : Nat → List Byte
  active : Option Nat
  fresh : Nat

/-- The pair `(*os.File, *bufio.Reader)` held by the handler: the inode the
descriptor refers to, the descriptor's offset, and the bytes the reader has
fetched from the descriptor but not yet handed out. -/
structure Handle where
  ino : Nat
  off : Nat
  buf : List Byte
deriving DecidableEq, Repr

/-- Position in the file of the next byte the reader will hand out. -/
def Handle.readerPos (h : Handle) : Nat := h.off - h.buf.length

/-- Injected failures of the system calls made while one event is handled. -/
structure Faults where
  stat : Bool
  read : Nat → Bool
  openF : Bool
  seekEnd : Bool
  watchAdd : Bool

/-- No system call fails. -/
def Faults.ok : Faults :=
  { stat := false, read := fun _ => false, openF := false, seekEnd := false, watchAdd := false }

/-! ## bufio.Reader.ReadString -/

/-- Size of the buffer of `bufio.NewReader`. -/
def defaultBufSize : Nat := 4096

/-- Split at the first delimiter: `some (line, rest)` with `line` ending in the
first `NL`, or `none` when there is no `NL`. -/
def splitNL : List Byte → Option (List Byte × List Byte)
  | [] => none
  | b :: bs =>
    if b = NL then some ([b], bs)
    else match splitNL bs with
      | some (l, r) => some (b :: l, r)
      | none => none

/-- Result of `reader.ReadString('\n')`: the returned string, the error class
and the handle afterwards. -/
inductive ReadRes where
  | line (s : List Byte) (h : Handle)
  | eof (s : List Byte) (h : Handle)
  | fail (s : List Byte) (h : Handle)
  | stuck
deriving DecidableEq, Repr

/-- One run of `ReadString`: `ReadSlice` is repeated, full buffers being
collected in `acc`, until the delimiter is buffered or `fill` reports an
error.  `fill` asks the descriptor for as many bytes as the buffer has free;
a read of zero bytes is `io.EOF`. -/
def readStringAux (c : List Byte) (rf : Nat → Bool) :
    Nat → List Byte → Handle → ReadRes
  | 0, _, _ => ReadRes.stuck
  | fuel + 1, acc, h =>
    match splitNL h.buf with
    | some (l, r) => ReadRes.line (acc ++ l) { h with buf := r }
    | none =>
      if defaultBufSize ≤ h.buf.length then
        readStringAux c rf fuel (acc ++ h.buf) { h with buf := [] }
      else if rf h.off then
        ReadRes.fail (acc ++ h.buf) { h with buf := [] }
      else
        let chunk := (c.drop h.off).take (defaultBufSize - h.buf.length)
        if chunk.isEmpty then
          ReadRes.eof (acc ++ h.buf) { h with buf := [] }
        else
          readStringAux c rf fuel acc
            { h with off := h.off + chunk.length, buf := h.buf ++ chunk }

/-- The call `reader.ReadString('\n')` on a file whose content is `c`. -/
def ReadString (c : List Byte) (rf : Nat → Bool) (h : Handle) : ReadRes :=
  readStringAux c rf (2 * (c.length - h.off) + 3) [] h

/-! ## Server-sent events -/

/-- Which `c.SSEvent("error", ...)` call produced an error event. -/
inductive ErrKind where
  | opening | creatingWatcher | reading | reopening | readding | watcher
deriving DecidableEq, Repr

/-- An event written by `c.SSEvent`. -/
inductive SSE where
  | log (payload : List Byte)
  | error (kind : ErrKind)
deriving DecidableEq, Repr

/-! ## openLogFile -/

/-- Model of `openLogFile`: `os.Open`, a new reader, `Seek(0, io.SeekEnd)`. -/
def openLogFile (fs : FS) (ft : Faults) : Option Handle :=
  match fs.active with
  | none => none
  | some i =>
    if ft.openF then none
    else if ft.seekEnd then none
    else some { ino := i, off := (fs.data i).length, buf := [] }

/-! ## The event loop of createFileTailHandler -/

/-- The bits of `event.Op`. -/
structure Op where
  write : Bool
  create : Bool
  remove : Bool
  rename : Bool
deriving DecidableEq, Repr

def Op.onlyWrite : Op := { write := true, create := false, remove := false, rename := false }
def Op.onlyCreate : Op := { write := false, create := true, remove := false, rename := false }
def Op.onlyRename : Op := { write := false, create := false, remove := false, rename := true }
def Op.onlyRemove : Op := { write := false, create := false, remove := true, rename := false }

/-- The truncation check (app.go 131-139): when `Stat` succeeds and the size
is below the descriptor's offset, seek to the start and take a new reader. -/
def truncCheck (fs : FS) (ft : Faults) (h : Handle) : Handle :=
  if ft.stat then h
  else if (fs.data h.ino).length < h.off then { h with off := 0, buf := [] }
  else h

/-- The inner loop (app.go 140-152): emit every line `ReadString` returns
without error, stop at `io.EOF`, report any other error and return.  The
result is `none` only when the fuel runs out; the second component of a
result is `none` when the handler has returned. -/
def readLoop (c : List Byte) (rf : Nat → Bool) :
    Nat → Handle → Option (List SSE × Option Handle)
  | 0, _ => none
  | fuel + 1, h =>
    match ReadString c rf h with
    | ReadRes.line s h1 =>
      match readLoop c rf fuel h1 with
      | some r => some (SSE.log s :: r.1, r.2)
      | none => none
    | ReadRes.eof _ h1 => some ([], some h1)
    | ReadRes.fail _ _ => some ([SSE.error ErrKind.reading], none)
    | ReadRes.stuck => none

/-- Fuel for the inner loop: every emitted line hands out at least one byte. -/
def readFuel (c : List Byte) (h : Handle) : Nat :=
  h.buf.length + (c.length - h.off) + 1

/-- The `Write|Create` branch of the loop body. -/
def onWrite (fs : FS) (ft : Faults) (h : Handle) : Option (List SSE × Option Handle) :=
  let h1 := truncCheck fs ft h
  readLoop (fs.data h1.ino) ft.read (readFuel (fs.data h1.ino) h1) h1

/-- The `Remove|Rename` branch of the loop body. -/
def onRemove (fs : FS) (ft : Faults) : List SSE × Option Handle :=
  match openLogFile fs ft with
  | none => ([SSE.error ErrKind.reopening], none)
  | some h2 =>
    if ft.watchAdd then ([SSE.error ErrKind.readding], none) else ([], some h2)

/-- One watcher event handled by the loop body (app.go 129-171).  The second
component of a result is `none` when the handler has returned. -/
def onEvent (fs : FS) (ft : Faults) (op : Op) (h : Handle) :
    Option (List SSE × Option Handle) :=
  match (if op.write || op.create then onWrite fs ft h else some ([], some h)) with
  | none => none
  | some (out, none) => some (out, none)
  | some (out, some h1) =>
    if op.remove || op.rename then
      some (out ++ (onRemove fs ft).1, (onRemove fs ft).2)
    else some (out, some h1)

/-- What happens around the handler: the environment changes the file system,
or one of the three channels of the `select` delivers. -/
inductive Action where
  | env (f : FS → FS)
  | done
  | eventsClosed
  | errorsClosed
  | watchErr
  | event (op : Op) (ft : Faults)

/-- The `for { select { ... } }` loop: the emitted events and, when the
handler is still blocked in the `select` after all the actions, the file
system and the handle at that point. -/
def tailRun : FS → Handle → List Action → Option (List SSE × Option (FS × Handle))
  | fs, h, [] => some ([], some (fs, h))
  | fs, h, Action.env f :: rest => tailRun (f fs) h rest
  | _, _, Action.done :: _ => some ([], none)
  | _, _, Action.eventsClosed :: _ => some ([], none)
  | _, _, Action.errorsClosed :: _ => some ([], none)
  | _, _, Action.watchErr :: _ => some ([SSE.error ErrKind.watcher], none)
  | fs, h, Action.event op ft :: rest =>
    match onEvent fs ft op h with
    | none => none
    | some (out, none) => some (out, none)
    | some (out, some h1) =>
      match tailRun fs h1 rest with
      | some r => some (out ++ r.1, r.2)
      | none => none

/-- Failures at start-up: of `openLogFile` and of `setupFileWatcher`. -/
structure StartFaults where
  file : Faults
  watcher : Bool

def StartFaults.ok : StartFaults := { file := Faults.ok, watcher := false }

/-- The handler returned by `createFileTailHandler`: the emitted events and
the state in which it is still blocked, if it is. -/
def createFileTailHandler (fs : FS) (sf : StartFaults) (acts : List Action) :
    Option (List SSE × Option (FS × Handle)) :=
  match openLogFile fs sf.file with
  | none => some ([SSE.error ErrKind.opening], none)
  | some h =>
    if sf.watcher then some ([SSE.error ErrKind.creatingWatcher], none)
    else tailRun fs h acts

/-- The events emitted by a run. -/
def emitted (r : Option (List SSE × Option (FS × Handle))) : Option (List SSE) :=
  r.map Prod.fst

/-- The handle with which a run is still blocked in the `select`. -/
def blockedAt (r : Option (List SSE × Option (FS × Handle))) : Option Handle :=
  match r with
  | some (_, some (_, h)) => some h
  | _ => none

/-! ## The environment: the logger, the reset endpoint, the rotation -/

/-- The logger appends `bs` to the active file (creating it when absent). -/
def FS.append (bs : List Byte) (fs : FS) : FS :=
  match fs.active with
  | some i => { fs with data := Function.update fs.data i (fs.data i ++ bs) }
  | none =>
    { data := Function.update fs.data fs.fresh bs, active := some fs.fresh,
      fresh := fs.fresh + 1 }

/-- Effect of `os.Truncate(filePath, 0)` on the active file. -/
def FS.reset (fs : FS) : FS :=
  match fs.active with
  | some i => { fs with data := Function.update fs.data i [] }
  | none => fs

/-- A rotation: the active file is renamed away (its inode keeps its content)
and a new empty file is created at the path. -/
def FS.rotate (fs : FS) : FS :=
  { data := Function.update fs.data fs.fresh [], active := some fs.fresh,
    fresh := fs.fresh + 1 }

/-- A file system holding one file, with content `c`, at the active path. -/
def FS.single (c : List Byte) : FS :=
  { data := fun i => if i = 0 then c else [], active := some 0, fresh := 1 }

/-- The action "the handler handles a plain Write event, nothing failing". -/
def wr : Action := Action.event Op.onlyWrite Faults.ok

/-- The action "append `s`". -/
def app (s : String) : Action := Action.env (FS.append (bytes s))

/-- Complete lines of a byte sequence, in order; `cur` is the line begun so
far.  A trailing fragment without delimiter yields nothing. -/
def linesFrom (cur : List Byte) : List Byte → List (List Byte)
  | [] => []
  | b :: bs =>
    if b = NL then (cur ++ [b]) :: linesFrom [] bs else linesFrom (cur ++ [b]) bs

/-- The newline-terminated lines of a byte sequence. -/
def completeLines (x : List Byte) : List (List Byte) := linesFrom [] x

/-- A payload is one line: it ends with the delimiter and has no other. -/
def IsLine (s : List Byte) : Prop := ∃ body, s = body ++ [NL] ∧ NL ∉ body

/-- The unread data ahead of a reader: its buffer, then the file from the
descriptor's offset on. -/
def rem (c : List Byte) (h : Handle) : List Byte := h.buf ++ c.drop h.off

/-- The history "each chunk is appended, then a Write event is handled". -/
def observed : List (List Byte) → List Action
  | [] => []
  | a :: rest => Action.env (FS.append a) :: wr :: observed rest

/-- The complete lines of each chunk taken by itself, chunk after chunk. -/
def linesPerChunk : List (List Byte) → List (List Byte)
  | [] => []
  | a :: rest => completeLines a ++ linesPerChunk rest

/-- The file system after every chunk has been appended. -/
def appendAll : List (List Byte) → FS → FS
  | [], fs => fs
  | a :: rest, fs => appendAll rest (FS.append a fs)

/-- A chunk that ends on a line boundary. -/
def LineAligned (a : List Byte) : Prop := a = [] ∨ ∃ b, a = b ++ [NL]

/-- Content of the file at the active path when a run is still blocked. -/
def activeContent (r : Option (List SSE × Option (FS × Handle))) : Option (List Byte) :=
  match r with
  | some (_, some (fs, _)) => fs.active.map fs.data
  | _ => none

/-- The history of the reset scenario: a line is appended and seen, the file
is reset and a new line of the same length is written before the handler
handles the next event. -/
def resetRace : List Action :=
  [app "hello\n", wr, Action.env FS.reset, app "world\n", wr]

/-- One step of a history in which the file system changes only by what the
spec describes (the logger appends, the reset truncates, the rotation renames
and recreates), between deliveries of the `select`. -/
inductive Step where
  | append (bs : List Byte)
  | reset
  | rotate
  | done
  | eventsClosed
  | errorsClosed
  | watchErr
  | event (op : Op) (ft : Faults)

/-- The action a step stands for. -/
def Step.toAction : Step → Action
  | Step.append bs => Action.env (FS.append bs)
  | Step.reset => Action.env FS.reset
  | Step.rotate => Action.env FS.rotate
  | Step.done => Action.done
  | Step.eventsClosed => Action.eventsClosed
  | Step.errorsClosed => Action.errorsClosed
  | Step.watchErr => Action.watchErr
  | Step.event op ft => Action.event op ft

/-- The file system `fs` with the content of inode `i` replaced by `c2`. -/
def FS.withContent (fs : FS) (i : Nat) (c2 : List Byte) : FS :=
  { fs with data := Function.update fs.data i c2 }

/-- The history of the rotation scenario: the file is rotated and the logger
writes "x\n" to the new file before the handler handles the Rename event;
"y\n" is written and seen afterwards. -/
def rotationRace : List Action :=
  [Action.env FS.rotate, app "x\n", Action.event Op.onlyRename Faults.ok, app "y\n", wr]

/-- Two file systems that differ at most in the first `k` bytes of inode `i`,
bytes which the handle `h` is past. -/
def Rel (i k : Nat) (fs fs2 : FS) (h : Handle) : Prop :=
  fs2.active = fs.active ∧ fs2.fresh = fs.fresh ∧ i < fs.fresh ∧
  (∀ j, j ≠ i → fs2.data j = fs.data j) ∧
  (fs2.data i).length = (fs.data i).length ∧
  (fs2.data i = fs.data i ∨
    ((fs2.data i).drop k = (fs.data i).drop k ∧ k ≤ (fs.data i).length ∧
      (h.ino = i → k ≤ h.off ∧ h.off ≤ (fs.data i).length)))

/-! ## path/filepath.Match and filepath.Glob (Unix, Go 1.16 or later)

Names and patterns are byte strings, as Go strings are; where the library
decodes a rune (`?`, bracket expressions) the model decodes UTF-8 as
`utf8.DecodeRuneInString` does.  `none` stands for `ErrBadPattern`. -/

/-- The rune `utf8.RuneError`. -/
def runeError : Nat := 65533

/-- Whether `b` is a UTF-8 continuation byte within `lo..hi`. -/
def inBytes (lo hi b : Byte) : Bool := decide (lo ≤ b) && decide (b ≤ hi)

/-- Model of `utf8.DecodeRuneInString`: the rune and its width in bytes; an
invalid or short encoding gives `(RuneError, 1)`, the empty string
`(RuneError, 0)`. -/
def decodeRune : List Byte → Nat × Nat
  | [] => (runeError, 0)
  | b0 :: t =>
    if b0 < 128 then (b0, 1)
    else if b0 < 194 then (runeError, 1)
    else if b0 < 224 then
      match t with
      | b1 :: _ =>
        if inBytes 128 191 b1 then ((b0 % 32) * 64 + b1 % 64, 2) else (runeError, 1)
      | [] => (runeError, 1)
    else if b0 < 240 then
      match t with
      | b1 :: b2 :: _ =>
        if inBytes (if b0 = 224 then 160 else 128) (if b0 = 237 then 159 else 191) b1
            && inBytes 128 191 b2 then
          ((b0 % 16) * 4096 + (b1 % 64) * 64 + b2 % 64, 3)
        else (runeError, 1)
      | _ => (runeError, 1)
    else if b0 < 245 then
      match t with
      | b1 :: b2 :: b3 :: _ =>
        if inBytes (if b0 = 240 then 144 else 128) (if b0 = 244 then 143 else 191) b1
            && inBytes 128 191 b2 && inBytes 128 191 b3 then
          ((b0 % 8) * 262144 + (b1 % 64) * 4096 + (b2 % 64) * 64 + b3 % 64, 4)
        else (runeError, 1)
      | _ => (runeError, 1)
    else (runeError, 1)

def cStar : Byte := 42
def cQuery : Byte := 63
def cOpen : Byte := 91
def cBackslash : Byte := 92
def cClose : Byte := 93
def cCaret : Byte := 94
def cDash : Byte := 45
def cSep : Byte := 47

/-- The loop of `scanChunk` after the leading stars: the chunk runs up to the
first `*` outside a bracket expression. -/
def scanSplit (inrange : Bool) : List Byte → List Byte × List Byte
  | [] => ([], [])
  | c :: p =>
    if c = cBackslash then
      match p with
      | [] => ([c], [])
      | d :: q => (c :: d :: (scanSplit inrange q).1, (scanSplit inrange q).2)
    else if c = cOpen then (c :: (scanSplit true p).1, (scanSplit true p).2)
    else if c = cClose then (c :: (scanSplit false p).1, (scanSplit false p).2)
    else if c = cStar ∧ inrange = false then ([], c :: p)
    else (c :: (scanSplit inrange p).1, (scanSplit inrange p).2)

/-- Leading stars of a pattern removed: whether there was one, and the rest. -/
def dropStars : List Byte → Bool × List Byte
  | [] => (false, [])
  | c :: p => if c = cStar then (true, (dropStars p).2) else (false, c :: p)

/-- Model of `scanChunk`: `(star, chunk, rest)`. -/
def scanChunk (pattern : List Byte) : Bool × List Byte × List Byte :=
  ((dropStars pattern).1, scanSplit false (dropStars pattern).2)

/-- The end of `getEsc`: the rune at the head of the chunk and the chunk after
it; an invalid encoding, or nothing left after the rune, is `ErrBadPattern`. -/
def escRune (chunk : List Byte) : Option (Nat × List Byte) :=
  if (decodeRune chunk).1 = runeError ∧ (decodeRune chunk).2 = 1 then none
  else if chunk.drop (decodeRune chunk).2 = [] then none
  else some ((decodeRune chunk).1, chunk.drop (decodeRune chunk).2)

/-- Model of `getEsc`: a possibly escaped character of a bracket expression
and the rest of the chunk; `none` is `ErrBadPattern`. -/
def getEsc : List Byte → Option (Nat × List Byte)
  | [] => none
  | c :: p =>
    if c = cDash ∨ c = cClose then none
    else if c = cBackslash then
      match p with
      | [] => none
      | d :: q => escRune (d :: q)
    else escRune (c :: p)

/-- The ranges of a bracket expression, read up to the closing bracket:
whether `r` is in one of them, and the rest of the chunk. -/
def classRanges (r : Nat) : Nat → Nat → Bool → List Byte → Option (Bool × List Byte)
  | 0, _, _, _ => none
  | fuel + 1, nrange, found, chunk =>
    match chunk with
    | c :: p =>
      if c = cClose ∧ 0 < nrange then some (found, p)
      else
        match getEsc chunk with
        | none => none
        | some (lo, chunk1) =>
          match chunk1 with
          | [] => none
          | c1 :: p1 =>
            if c1 = cDash then
              match getEsc p1 with
              | none => none
              | some (hi, chunk2) =>
                classRanges r fuel (nrange + 1) (found || (decide (lo ≤ r) && decide (r ≤ hi))) chunk2
            else
              classRanges r fuel (nrange + 1) (found || (decide (lo ≤ r) && decide (r ≤ lo))) chunk1
    | [] => none

/-- Result of `matchChunk`. -/
inductive ChunkRes where
  | bad
  | no
  | ok (rest : List Byte)
deriving DecidableEq, Repr

/-- Model of `matchChunk`: `s` is `none` once the match has failed, after
which the chunk is only checked for well-formedness. -/
def matchChunkAux : Nat → List Byte → Option (List Byte) → ChunkRes
  | 0, _, _ => ChunkRes.bad
  | fuel + 1, chunk, s =>
    match chunk with
    | [] =>
      match s with
      | some t => ChunkRes.ok t
      | none => ChunkRes.no
    | c :: p =>
      let s1 : Option (List Byte) := if s = some [] then none else s
      if c = cOpen then
        let r : Nat := match s1 with
          | some t => (decodeRune t).1
          | none => 0
        let s2 : Option (List Byte) := s1.map (fun t => t.drop (decodeRune t).2)
        let negated : Bool := decide (p.head? = some cCaret)
        let p1 := if negated then p.tail else p
        match classRanges r (p1.length + 1) 0 false p1 with
        | none => ChunkRes.bad
        | some (found, p2) =>
          matchChunkAux fuel p2 (if found = negated then none else s2)
      else if c = cQuery then
        match s1 with
        | some (x :: t) =>
          matchChunkAux fuel p
            (if x = cSep then none else some ((x :: t).drop (decodeRune (x :: t)).2))
        | _ => matchChunkAux fuel p none
      else if c = cBackslash then
        match p with
        | [] => ChunkRes.bad
        | d :: q =>
          match s1 with
          | some (x :: t) => matchChunkAux fuel q (if d = x then some t else none)
          | _ => matchChunkAux fuel q none
      else
        match s1 with
        | some (x :: t) => matchChunkAux fuel p (if c = x then some t else none)
        | _ => matchChunkAux fuel p none

def matchChunk (chunk s : List Byte) : ChunkRes :=
  matchChunkAux (chunk.length + 1) chunk (some s)

/-- The loop "look for a match skipping i+1 bytes; cannot skip /": the rest of
the name after the first position where the chunk matches (to the end of the
name, when the chunk is the last one); `none` is `ErrBadPattern`. -/
def starSkip (chunk : List Byte) (last : Bool) : List Byte → Option (Option (List Byte))
  | [] => some none
  | x :: t =>
    if x = cSep then some none
    else
      match matchChunk chunk t with
      | ChunkRes.ok r =>
        if last ∧ r ≠ [] then starSkip chunk last t else some (some r)
      | ChunkRes.bad => none
      | ChunkRes.no => starSkip chunk last t

/-- Model of `filepath.Match`: `none` is `ErrBadPattern`.  A chunk that does
not match, with no star before it or no later position where it matches,
ends the loop with `false` and no error. -/
def matchAux : Nat → List Byte → List Byte → Option Bool
  | 0, _, _ => none
  | fuel + 1, pattern, name =>
    if pattern = [] then some (decide (name = []))
    else
      let star := (scanChunk pattern).1
      let chunk := (scanChunk pattern).2.1
      let rest := (scanChunk pattern).2.2
      if star ∧ chunk = [] then some (decide (cSep ∉ name))
      else
        match matchChunk chunk name with
        | ChunkRes.bad => none
        | ChunkRes.ok t =>
          if t = [] ∨ rest ≠ [] then matchAux fuel rest t
          else if star then
            match starSkip chunk (decide (rest = [])) name with
            | none => none
            | some (some t1) => matchAux fuel rest t1
            | some none => some false
          else some false
        | ChunkRes.no =>
          if star then
            match starSkip chunk (decide (rest = [])) name with
            | none => none
            | some (some t1) => matchAux fuel rest t1
            | some none => some false
          else some false

def Match (pattern name : List Byte) : Option Bool :=
  matchAux (pattern.length + 1) pattern name

/-! ## The directory of the log file and ResetLogFile

`filePath` is a file of the directory `/var/log/`, the directory of
`ControlServerLogFilePath`: `Glob` lists that one directory, files are
identified by their names in it, and `filePath` by its file name. -/

/-- The directory part of `ControlServerLogFilePath`. -/
def logDir : List Byte := bytes "/var/log/"

/-- A file name: not empty, not `.` or `..`, of bytes other than NUL and the
separator. -/
def IsFileName (n : List Byte) : Prop :=
  n ≠ [] ∧ n ≠ bytes "." ∧ n ≠ bytes ".." ∧ ∀ b ∈ n, b ≠ 0 ∧ b ≠ cSep ∧ b < 256

/-- The directory: its entries, name and content, in the order in which
`Glob` returns names (sorted). -/
abbrev Disk := List (List Byte × List Byte)

/-- The names of the directory entries. -/
def Disk.names (d : Disk) : List (List Byte) := d.map Prod.fst

/-- The content of the file called `n`, if there is one. -/
def Disk.lookup (d : Disk) (n : List Byte) : Option (List Byte) :=
  match d with
  | [] => none
  | e :: rest => if e.1 = n then some e.2 else Disk.lookup rest n

/-- Effect of `os.Truncate(n, 0)`. -/
def Disk.truncate (n : List Byte) (d : Disk) : Disk :=
  d.map (fun e => if e.1 = n then (e.1, []) else e)

/-- Effect of `os.Remove(n)`. -/
def Disk.remove (n : List Byte) (d : Disk) : Disk :=
  d.filter (fun e => decide (e.1 ≠ n))

/-- Injected failures of the calls of `ResetLogFile`: `Stat` failing with an
error other than "not exist", `Truncate`, reading the directory inside `Glob`,
and `Remove` by name. -/
structure DiskFaults where
  stat : Bool
  truncate : Bool
  readdir : Bool
  remove : List Byte → Bool

/-- No call fails. -/
def DiskFaults.ok : DiskFaults :=
  { stat := false, truncate := false, readdir := false, remove := fun _ => false }

/-- The error returned by `ResetLogFile`, by the call it comes from. -/
inductive ResetErr where
  | stat
  | truncate
  | badPattern
  | remove (name : List Byte)
deriving DecidableEq, Repr

/-- Model of `strings.TrimSuffix`. -/
def trimSuffix (s suffix : List Byte) : List Byte :=
  if suffix.isSuffixOf s then s.take (s.length - suffix.length) else s

/-- The pattern `strings.TrimSuffix(filePath, ".log") + "-*.log.gz"`. -/
def backupPattern (filePath : List Byte) : List Byte :=
  trimSuffix filePath (bytes ".log") ++ bytes "-*.log.gz"

/-- The loop of `glob`: the names that match, in order; an error of `Match`
is returned. -/
def globNames (pattern : List Byte) : List (List Byte) → Option (List (List Byte))
  | [] => some []
  | n :: ns =>
    match Match pattern n with
    | none => none
    | some b =>
      match globNames pattern ns with
      | none => none
      | some ms => some (if b then n :: ms else ms)

/-- Model of `filepath.Glob` on the path pattern `logDir ++ pattern`, where
`pattern` holds a `*` and no separator: the whole path pattern is checked with
`Match(_, "")`; the directory part having no metacharacter, the names of that
directory are matched against `pattern`; an error reading the directory is
ignored (no match). -/
def Glob (io : DiskFaults) (pattern : List Byte) (d : Disk) : Option (List (List Byte)) :=
  if Match (logDir ++ pattern) [] = none then none
  else if io.readdir then some []
  else globNames pattern d.names

/-- The loop over the matches (logger.go 43-47): the first `Remove` that fails
ends it with that error. -/
def removeMatches (io : DiskFaults) : List (List Byte) → Disk → Disk × Option ResetErr
  | [], d => (d, none)
  | m :: ms, d =>
    if io.remove m = true ∨ d.lookup m = none then (d, some (ResetErr.remove m))
    else removeMatches io ms (d.remove m)

/-- Model of `ResetLogFile`: the directory afterwards and the error returned
(`none` for `nil`). -/
def ResetLogFile (io : DiskFaults) (filePath : List Byte) (d : Disk) :
    Disk × Option ResetErr :=
  if io.stat then (d, some ResetErr.stat)
  else if (d.lookup filePath).isSome ∧ io.truncate = true then (d, some ResetErr.truncate)
  else
    match Glob io (backupPattern filePath)
        (if (d.lookup filePath).isSome then d.truncate filePath else d) with
    | none =>
      (if (d.lookup filePath).isSome then d.truncate filePath else d,
        some ResetErr.badPattern)
    | some ms =>
      removeMatches io ms (if (d.lookup filePath).isSome then d.truncate filePath else d)

/-- The server's log file (`ControlServerLogFilePath`), by its file name in
`/var/log/`. -/
def ControlServerLogFile : List Byte := bytes "controlserver.log"

/-- A directory with the log file and three of its neighbours. -/
def sampleDisk : Disk :=
  [ (bytes "controlserver-2024-01-01.log.gz", bytes "a"),
    (bytes "controlserver-2024-01-02.log.gz", bytes "b"),
    (bytes "controlserver.log", bytes "line\n"),
    (bytes "other.log", bytes "keep\n") ]

/-- A name that matches the backup pattern built from itself. -/
def selfMatching : List Byte := bytes "[.log.gz-z[].log.gz"

/-- Failures in which exactly the removal of the first backup of `sampleDisk`
fails. -/
def firstRemoveFails : DiskFaults :=
  { stat := false, truncate := false, readdir := false,
    remove := fun n => decide (n = bytes "controlserver-2024-01-01.log.gz") }

/-! ## Auxiliary definitions of the proofs -/

/-- Fuel that one `ReadString` needs from a given handle. -/
def readMeasure (c : List Byte) (h : Handle) : Nat :=
  2 * (c.length - h.off) + (if defaultBufSize ≤ h.buf.length then 1 else 0) + 1

/-- Every event of a trace is a `log` event carrying one line. -/
def Logs (out : List SSE) : Prop := ∀ e ∈ out, ∃ s, e = SSE.log s ∧ IsLine s

/-- The directory after the files named in `ms` have been removed. -/
def removeAll (ms : List (List Byte)) (d : Disk) : Disk :=
  ms.foldl (fun acc m => Disk.remove m acc) d

/-- Failures in which exactly the removal of the second backup of
`sampleDisk` fails. -/
def secondRemoveFails : DiskFaults :=
  { stat := false, truncate := false, readdir := false,
    remove := fun n => decide (n = bytes "controlserver-2024-01-02.log.gz") }

/-- A name without the characters `*`, `?`, `[` and `\`, which `Glob` reads
as operators. -/
def Plain (p : List Byte) : Prop :=
  cStar ∉ p ∧ cQuery ∉ p ∧ cOpen ∉ p ∧ cBackslash ∉ p

/-! ## Lemmas: splitting at the delimiter -/

theorem splitNL_append_some {a l r : List Byte} (b : List Byte)
    (h : splitNL a = some (l, r)) : splitNL (a ++ b) = some (l, r ++ b) := by
  induction a generalizing l r with
  | nil => simp [splitNL] at h
  | cons x xs ih =>
    rw [List.cons_append]
    simp only [splitNL] at h ⊢
    by_cases hx : x = NL
    · simp only [hx, if_true] at h ⊢
      simp only [Option.some.injEq, Prod.mk.injEq] at h
      obtain ⟨h1, h2⟩ := h
      simp [← h1, ← h2]
    · simp only [hx, if_false] at h ⊢
      cases hs : splitNL xs with
      | none => simp [hs] at h
      | some p =>
        obtain ⟨l1, r1⟩ := p
        rw [hs] at h
        simp only [Option.some.injEq, Prod.mk.injEq] at h
        obtain ⟨h1, h2⟩ := h
        rw [ih hs]
        simp [← h1, ← h2]

theorem splitNL_append_none {a : List Byte} (b : List Byte)
    (h : splitNL a = none) :
    splitNL (a ++ b) = (splitNL b).map (fun p => (a ++ p.1, p.2)) := by
  induction a with
  | nil => cases hb : splitNL b <;> simp [hb]
  | cons x xs ih =>
    rw [List.cons_append]
    simp only [splitNL] at h ⊢
    by_cases hx : x = NL
    · simp [hx] at h
    · simp only [hx, if_false] at h ⊢
      cases hs : splitNL xs with
      | some p => simp [hs] at h
      | none =>
        rw [ih hs]
        cases hb : splitNL b <;> simp [hb]

theorem splitNL_some_spec {a l r : List Byte} (h : splitNL a = some (l, r)) :
    a = l ++ r ∧ ∃ body, l = body ++ [NL] ∧ NL ∉ body := by
  induction a generalizing l r with
  | nil => simp [splitNL] at h
  | cons x xs ih =>
    simp only [splitNL] at h
    by_cases hx : x = NL
    · simp only [hx, if_true, Option.some.injEq, Prod.mk.injEq] at h
      obtain ⟨h1, h2⟩ := h
      subst h1 h2
      exact ⟨by simp [hx], [], by simp, by simp⟩
    · simp only [hx, if_false] at h
      cases hs : splitNL xs with
      | none => simp [hs] at h
      | some p =>
        obtain ⟨l1, r1⟩ := p
        rw [hs] at h
        simp only [Option.some.injEq, Prod.mk.injEq] at h
        obtain ⟨h1, h2⟩ := h
        subst h1 h2
        obtain ⟨e, body, hb, hn⟩ := ih hs
        refine ⟨by simp [e], x :: body, by simp [hb], ?_⟩
        simp only [List.mem_cons, not_or]
        exact ⟨fun h => hx h.symm, hn⟩

theorem splitNL_none_iff {a : List Byte} : splitNL a = none ↔ NL ∉ a := by
  induction a with
  | nil => simp [splitNL]
  | cons x xs ih =>
    simp only [splitNL, List.mem_cons, not_or]
    by_cases hx : x = NL
    · simp [hx]
    · simp only [hx, if_false]
      cases hs : splitNL xs with
      | none => simp [hs] at ih; simp [ih, Ne.symm hx]
      | some p => simp [hs] at ih; simp [ih]

theorem linesFrom_of_split {x l r : List Byte} (cur : List Byte)
    (h : splitNL x = some (l, r)) :
    linesFrom cur x = (cur ++ l) :: linesFrom [] r := by
  induction x generalizing cur l r with
  | nil => simp [splitNL] at h
  | cons b bs ih =>
    simp only [splitNL] at h
    by_cases hb : b = NL
    · simp only [hb, if_true, Option.some.injEq, Prod.mk.injEq] at h
      obtain ⟨h1, h2⟩ := h
      subst h1 h2
      simp [linesFrom, hb]
    · simp only [hb, if_false] at h
      cases hs : splitNL bs with
      | none => simp [hs] at h
      | some p =>
        obtain ⟨l1, r1⟩ := p
        rw [hs] at h
        simp only [Option.some.injEq, Prod.mk.injEq] at h
        obtain ⟨h1, h2⟩ := h
        subst h1 h2
        simp [linesFrom, hb, ih (cur ++ [b]) hs]

theorem linesFrom_of_none {x : List Byte} (cur : List Byte)
    (h : splitNL x = none) : linesFrom cur x = [] := by
  induction x generalizing cur with
  | nil => simp [linesFrom]
  | cons b bs ih =>
    simp only [splitNL] at h
    by_cases hb : b = NL
    · simp [hb] at h
    · simp only [hb, if_false] at h
      cases hs : splitNL bs with
      | some p => simp [hs] at h
      | none => simp [linesFrom, hb, ih (cur ++ [b]) hs]

/-! ## Lemmas: ReadString -/

theorem take_append_drop_length (x : List Byte) (n : Nat) :
    x.take n ++ x.drop (x.take n).length = x := by
  rw [List.length_take]
  rcases Nat.le_total n x.length with h | h
  · rw [Nat.min_eq_left h]; exact List.take_append_drop n x
  · rw [Nat.min_eq_right h, List.take_of_length_le h, List.drop_length, List.append_nil]

theorem readStringAux_spec (c : List Byte) (rf : Nat → Bool) :
    ∀ (fuel : Nat) (acc : List Byte) (h : Handle), readMeasure c h ≤ fuel →
      match readStringAux c rf fuel acc h with
      | ReadRes.line s h1 =>
        ∃ l, splitNL (rem c h) = some (l, rem c h1) ∧ s = acc ++ l ∧ h1.ino = h.ino ∧
          max h1.off c.length = max h.off c.length ∧ h.off ≤ h1.off
      | ReadRes.eof s h1 =>
        splitNL (rem c h) = none ∧ s = acc ++ rem c h ∧
          h1 = { ino := h.ino, off := max h.off c.length, buf := [] }
      | ReadRes.fail _ _ => ∃ o, rf o = true
      | ReadRes.stuck => False := by
  intro fuel
  induction fuel with
  | zero => intro acc h hm; simp [readMeasure] at hm
  | succ n ih =>
    intro acc h hm
    rw [readStringAux]
    cases hs : splitNL h.buf with
    | some p =>
      obtain ⟨l, r⟩ := p
      simp only
      exact ⟨l, by simpa [rem] using splitNL_append_some (c.drop h.off) hs, by simp⟩
    | none =>
      simp only
      by_cases hfull : defaultBufSize ≤ h.buf.length
      · simp only [hfull, if_true]
        have hm1 : readMeasure c { h with buf := [] } ≤ n := by
          simp only [readMeasure, hfull, if_true] at hm
          simp only [readMeasure, List.length_nil, defaultBufSize]
          simp; omega
        have key := ih (acc ++ h.buf) { h with buf := [] } hm1
        have hr : rem c h = h.buf ++ rem c { h with buf := [] } := by simp [rem]
        revert key
        cases readStringAux c rf n (acc ++ h.buf) { h with buf := [] } with
        | line s h1 =>
          simp only
          rintro ⟨l, h1s, h2s, h3s⟩
          refine ⟨h.buf ++ l, ?_, by simp [h2s], h3s⟩
          rw [hr, splitNL_append_none _ hs, h1s]; rfl
        | eof s h1 =>
          simp only
          rintro ⟨h1s, h2s, h3s⟩
          refine ⟨?_, by simp [h2s, hr], h3s⟩
          rw [hr, splitNL_append_none _ hs, h1s]; rfl
        | fail s h1 => simp only; exact id
        | stuck => simp only; exact id
      · simp only [hfull, if_false]
        by_cases hrf : rf h.off = true
        · simp only [hrf, if_true]; exact ⟨h.off, hrf⟩
        · simp only [hrf]
          by_cases hch : ((c.drop h.off).take (defaultBufSize - h.buf.length)).isEmpty = true
          · simp only [hch, if_true]
            have hnil : c.drop h.off = [] := by
              rw [List.isEmpty_iff, List.take_eq_nil_iff] at hch
              rcases hch with h0 | h0
              · omega
              · exact h0
            have hle : c.length ≤ h.off := by
              have := congrArg List.length hnil
              simp at this; omega
            refine ⟨by simp [rem, hnil, hs], by simp [rem, hnil], ?_⟩
            simp [Nat.max_eq_left hle]
          · simp only [hch]
            set chunk := (c.drop h.off).take (defaultBufSize - h.buf.length) with hchunk
            have hne : chunk ≠ [] := by
              intro h0; rw [h0] at hch; simp at hch
            have hlen : 0 < chunk.length := List.length_pos.mpr hne
            have hcl : chunk.length ≤ c.length - h.off := by
              rw [hchunk, List.length_take, List.length_drop]; exact Nat.min_le_right _ _
            have hr : rem c { h with off := h.off + chunk.length, buf := h.buf ++ chunk }
                = rem c h := by
              simp only [rem, List.append_assoc]
              congr 1
              rw [← List.drop_drop]
              exact take_append_drop_length (c.drop h.off) _
            have hm1 : readMeasure c { h with off := h.off + chunk.length, buf := h.buf ++ chunk }
                ≤ n := by
              simp only [readMeasure, hfull, if_false] at hm
              simp only [readMeasure]
              split <;> omega
            have key := ih acc { h with off := h.off + chunk.length, buf := h.buf ++ chunk } hm1
            rw [hr] at key
            revert key
            cases readStringAux c rf n acc
                { h with off := h.off + chunk.length, buf := h.buf ++ chunk } with
            | line s h1 =>
              simp only
              rintro ⟨l, h1s, h2s, h3s, h4s, h5s⟩
              exact ⟨l, h1s, h2s, h3s, by omega, by omega⟩
            | eof s h1 =>
              simp only
              rintro ⟨h1s, h2s, h3s⟩
              refine ⟨h1s, h2s, ?_⟩
              rw [h3s]
              have : max (h.off + chunk.length) c.length = max h.off c.length := by
                omega
              simp [this]
            | fail s h1 => simp only; exact id
            | stuck => simp only; exact id

theorem ReadString_spec (c : List Byte) (rf : Nat → Bool) (h : Handle) :
    match ReadString c rf h with
    | ReadRes.line s h1 =>
      splitNL (rem c h) = some (s, rem c h1) ∧ h1.ino = h.ino ∧
        max h1.off c.length = max h.off c.length ∧ h.off ≤ h1.off
    | ReadRes.eof s h1 =>
      splitNL (rem c h) = none ∧ s = rem c h ∧
        h1 = { ino := h.ino, off := max h.off c.length, buf := [] }
    | ReadRes.fail _ _ => ∃ o, rf o = true
    | ReadRes.stuck => False := by
  have hm : readMeasure c h ≤ 2 * (c.length - h.off) + 3 := by
    simp only [readMeasure]; split <;> omega
  have key := readStringAux_spec c rf _ [] h hm
  unfold ReadString
  revert key
  cases readStringAux c rf (2 * (c.length - h.off) + 3) [] h with
  | line s h1 =>
    simp only
    rintro ⟨l, h1s, h2s, h3s⟩
    simp only [List.nil_append] at h2s
    subst h2s
    exact ⟨h1s, h3s⟩
  | eof s h1 => simp only [List.nil_append]; exact id
  | fail s h1 => simp only; exact id
  | stuck => simp only; exact id

theorem linesFrom_isLine (x : List Byte) :
    ∀ cur, NL ∉ cur → ∀ l ∈ linesFrom cur x, IsLine l := by
  induction x with
  | nil => intro cur _ l hl; simp [linesFrom] at hl
  | cons b bs ih =>
    intro cur hc l hl
    simp only [linesFrom] at hl
    by_cases hb : b = NL
    · simp only [hb, if_true, List.mem_cons] at hl
      rcases hl with hl | hl
      · exact ⟨cur, hl, hc⟩
      · exact ih [] (by simp) l hl
    · simp only [hb, if_false] at hl
      refine ih (cur ++ [b]) ?_ l hl
      simp only [List.mem_append, List.mem_singleton, not_or]
      exact ⟨hc, fun h => hb h.symm⟩

theorem completeLines_isLine (x : List Byte) : ∀ l ∈ completeLines x, IsLine l :=
  linesFrom_isLine x [] (by simp)

/-- The inner loop with enough fuel: either it reaches `io.EOF`, having
emitted every complete line ahead of the reader, or a read fails after some
of these lines were emitted. -/
theorem readLoop_spec (c : List Byte) (rf : Nat → Bool) :
    ∀ (fuel : Nat) (h : Handle), (rem c h).length + 1 ≤ fuel →
      (readLoop c rf fuel h = some ((completeLines (rem c h)).map SSE.log,
          some { ino := h.ino, off := max h.off c.length, buf := [] }))
      ∨ ((∃ o, rf o = true) ∧ ∃ ls, ls <+: completeLines (rem c h) ∧
          readLoop c rf fuel h = some (ls.map SSE.log ++ [SSE.error ErrKind.reading], none)) := by
  intro fuel
  induction fuel with
  | zero => intro h hm; omega
  | succ n ih =>
    intro h hm
    rw [readLoop]
    have key := ReadString_spec c rf h
    revert key
    cases ReadString c rf h with
    | line s h1 =>
      simp only
      rintro ⟨h1s, h2s, h3s, _⟩
      have hsp := splitNL_some_spec h1s
      obtain ⟨hcat, body, hbody, _⟩ := hsp
      have hlen : (rem c h1).length + 1 ≤ n := by
        have := congrArg List.length hcat
        rw [hbody] at this
        simp at this; omega
      have hl : completeLines (rem c h) = s :: completeLines (rem c h1) := by
        simpa [completeLines] using linesFrom_of_split [] h1s
      rcases ih h1 hlen with h0 | ⟨hf, ls, hpre, h0⟩
      · left
        rw [h0, hl, h2s, h3s]; rfl
      · right
        refine ⟨hf, s :: ls, ?_, ?_⟩
        · rw [hl]; exact List.cons_prefix_cons.mpr ⟨rfl, hpre⟩
        · rw [h0]; rfl
    | eof s h1 =>
      simp only
      rintro ⟨h1s, _, h3s⟩
      left
      rw [h3s]
      simp [completeLines, linesFrom_of_none [] h1s]
    | fail s h1 =>
      simp only
      intro hf
      right
      exact ⟨hf, [], List.nil_prefix, rfl⟩
    | stuck => simp only; exact False.elim

/-! ## Lemmas: the reader sees the file only from its offset on -/

theorem readStringAux_congr (c c2 : List Byte) (rf : Nat → Bool) :
    ∀ (fuel : Nat) (acc : List Byte) (h : Handle), c2.drop h.off = c.drop h.off →
      readStringAux c2 rf fuel acc h = readStringAux c rf fuel acc h := by
  intro fuel
  induction fuel with
  | zero => intro acc h _; rfl
  | succ n ih =>
    intro acc h hd
    rw [readStringAux, readStringAux]
    cases splitNL h.buf with
    | some p => rfl
    | none =>
      simp only [hd]
      by_cases hfull : defaultBufSize ≤ h.buf.length
      · simp only [hfull, if_true]
        exact ih _ _ hd
      · simp only [hfull, if_false]
        by_cases hrf : rf h.off = true
        · simp only [hrf, if_true]
        · simp only [hrf]
          by_cases hch : ((c.drop h.off).take (defaultBufSize - h.buf.length)).isEmpty = true
          · simp only [hch, if_true]
          · simp only [hch]
            apply ih
            simp only
            rw [← List.drop_drop, ← List.drop_drop, hd]

theorem readLoop_congr (c c2 : List Byte) (rf : Nat → Bool)
    (hlen : c2.length = c.length) :
    ∀ (fuel : Nat) (h : Handle), c2.drop h.off = c.drop h.off →
      readLoop c2 rf fuel h = readLoop c rf fuel h := by
  intro fuel
  induction fuel with
  | zero => intro h _; rfl
  | succ n ih =>
    intro h hd
    have hrs : ReadString c2 rf h = ReadString c rf h := by
      unfold ReadString
      rw [hlen]
      exact readStringAux_congr c c2 rf _ _ _ hd
    rw [readLoop, readLoop, hrs]
    have key := ReadString_spec c rf h
    revert key
    cases ReadString c rf h with
    | line s h1 =>
      simp only
      rintro ⟨_, _, _, hmono⟩
      have hd1 : c2.drop h1.off = c.drop h1.off := by
        have e : h1.off = h.off + (h1.off - h.off) := by omega
        rw [e, ← List.drop_drop, ← List.drop_drop, hd]
      rw [ih h1 hd1]
    | eof s h1 => intro _; rfl
    | fail s h1 => intro _; rfl
    | stuck => intro _; rfl

/-! ## Lemmas: one event -/

theorem truncCheck_ino (fs : FS) (ft : Faults) (h : Handle) :
    (truncCheck fs ft h).ino = h.ino := by
  unfold truncCheck
  split
  · rfl
  · split <;> rfl

theorem rem_length (c : List Byte) (h : Handle) :
    (rem c h).length + 1 = readFuel c h := by
  simp [rem, readFuel]

/-- The `Write|Create` branch, any failures: every complete line ahead of the
reader is emitted and the reader is left drained at end of file, or a read
fails after some of these lines. -/
theorem onWrite_spec (fs : FS) (ft : Faults) (h : Handle) :
    (onWrite fs ft h = some
        ((completeLines (rem (fs.data h.ino) (truncCheck fs ft h))).map SSE.log,
          some { ino := h.ino,
                 off := max (truncCheck fs ft h).off (fs.data h.ino).length, buf := [] }))
    ∨ ((∃ o, ft.read o = true) ∧
        ∃ ls, ls <+: completeLines (rem (fs.data h.ino) (truncCheck fs ft h)) ∧
          onWrite fs ft h = some (ls.map SSE.log ++ [SSE.error ErrKind.reading], none)) := by
  have key := readLoop_spec (fs.data h.ino) ft.read
    (readFuel (fs.data h.ino) (truncCheck fs ft h)) (truncCheck fs ft h)
    (le_of_eq (rem_length _ _))
  simp only [onWrite, truncCheck_ino] at key ⊢
  exact key

/-- The `Write|Create` branch when nothing fails and the reader is drained. -/
theorem onWrite_clean (fs : FS) (h : Handle) (hb : h.buf = []) :
    onWrite fs Faults.ok h = some
      ((completeLines (if (fs.data h.ino).length < h.off then fs.data h.ino
          else (fs.data h.ino).drop h.off)).map SSE.log,
        some { ino := h.ino, off := (fs.data h.ino).length, buf := [] }) := by
  rcases onWrite_spec fs Faults.ok h with h0 | ⟨⟨o, ho⟩, _⟩
  · rw [h0]
    by_cases hlt : (fs.data h.ino).length < h.off
    · simp [truncCheck, Faults.ok, hlt, rem]
    · have hle : h.off ≤ (fs.data h.ino).length := Nat.le_of_not_lt hlt
      simp [truncCheck, Faults.ok, hlt, rem, hb, Nat.max_eq_right hle]
  · simp [Faults.ok] at ho

theorem Logs_nil : Logs [] := by intro e he; simp at he

theorem Logs_append {a b : List SSE} (ha : Logs a) (hb : Logs b) : Logs (a ++ b) := by
  intro e he
  rcases List.mem_append.mp he with h | h
  · exact ha e h
  · exact hb e h

theorem Logs_of_initial_lines {ls all : List (List Byte)} (hp : ls <+: all)
    (hall : ∀ l ∈ all, IsLine l) : Logs (ls.map SSE.log) := by
  intro e he
  obtain ⟨l, hl, rfl⟩ := List.mem_map.mp he
  exact ⟨l, rfl, hall l (hp.subset hl)⟩

theorem onWrite_shape (fs : FS) (ft : Faults) (h : Handle) :
    ∃ out st, onWrite fs ft h = some (out, st) ∧
      ((∃ h1, st = some h1 ∧ Logs out ∧ h1.buf = [] ∧ h1.ino = h.ino)
        ∨ (st = none ∧ ∃ ls, out = ls ++ [SSE.error ErrKind.reading] ∧ Logs ls)) := by
  rcases onWrite_spec fs ft h with h0 | ⟨_, ls, hpre, h0⟩
  · exact ⟨_, _, h0, Or.inl ⟨_, rfl,
      Logs_of_initial_lines (List.prefix_refl _) (completeLines_isLine _), rfl, rfl⟩⟩
  · exact ⟨_, _, h0, Or.inr ⟨rfl, _, rfl,
      Logs_of_initial_lines hpre (completeLines_isLine _)⟩⟩

theorem onRemove_shape (fs : FS) (ft : Faults) :
    (∃ h1, onRemove fs ft = ([], some h1) ∧ h1.buf = [] ∧
        fs.active = some h1.ino ∧ h1.off = (fs.data h1.ino).length)
    ∨ (∃ k, onRemove fs ft = ([SSE.error k], none)) := by
  unfold onRemove openLogFile
  cases ha : fs.active with
  | none => exact Or.inr ⟨_, rfl⟩
  | some i =>
    simp only
    by_cases h1 : ft.openF = true
    · simp only [h1, if_true]; exact Or.inr ⟨_, rfl⟩
    · simp only [h1]
      by_cases h2 : ft.seekEnd = true
      · simp only [h2, if_true]; exact Or.inr ⟨_, rfl⟩
      · simp only [h2]
        by_cases h3 : ft.watchAdd = true
        · simp only [h3, if_true]; exact Or.inr ⟨_, rfl⟩
        · simp only [h3]
          exact Or.inl ⟨_, rfl, rfl, rfl, rfl⟩

/-- One event, any failures: the handler either goes back to the `select`
having emitted only lines, with a drained reader, or returns after emitting
lines and one `error` event. -/
theorem onEvent_shape (fs : FS) (ft : Faults) (op : Op) (h : Handle) :
    ∃ out st, onEvent fs ft op h = some (out, st) ∧
      ((∃ h1, st = some h1 ∧ Logs out ∧ (h.buf = [] → h1.buf = []))
        ∨ (st = none ∧ ∃ ls k, out = ls ++ [SSE.error k] ∧ Logs ls)) := by
  unfold onEvent
  by_cases hw : (op.write || op.create) = true
  · simp only [hw, if_true]
    obtain ⟨out, st, h0, hsh⟩ := onWrite_shape fs ft h
    rw [h0]
    rcases hsh with ⟨h1, rfl, hl, hb, _⟩ | ⟨rfl, ls, rfl, hl⟩
    · simp only
      by_cases hr : (op.remove || op.rename) = true
      · simp only [hr, if_true]
        rcases onRemove_shape fs ft with ⟨h2, e2, hb2, _⟩ | ⟨k, e2⟩
        · rw [e2]
          exact ⟨_, _, rfl, Or.inl ⟨h2, rfl, by simpa using hl, fun _ => hb2⟩⟩
        · rw [e2]
          exact ⟨_, _, rfl, Or.inr ⟨rfl, out, k, rfl, hl⟩⟩
      · simp only [hr]
        exact ⟨_, _, rfl, Or.inl ⟨h1, rfl, hl, fun _ => hb⟩⟩
    · exact ⟨_, _, rfl, Or.inr ⟨rfl, ls, _, rfl, hl⟩⟩
  · simp only [hw]
    by_cases hr : (op.remove || op.rename) = true
    · simp only [hr, if_true]
      rcases onRemove_shape fs ft with ⟨h2, e2, hb2, _⟩ | ⟨k, e2⟩
      · rw [e2]
        exact ⟨_, _, rfl, Or.inl ⟨h2, rfl, by simpa using Logs_nil, fun _ => hb2⟩⟩
      · rw [e2]
        exact ⟨_, _, rfl, Or.inr ⟨rfl, [], k, rfl, Logs_nil⟩⟩
    · simp only [hr]
      exact ⟨_, _, rfl, Or.inl ⟨h, rfl, Logs_nil, id⟩⟩

/-! ## Lemmas: runs of the loop -/

theorem Logs_payloads {out : List SSE} (h : Logs out) :
    ∃ logs : List (List Byte), out = logs.map SSE.log ∧ ∀ s ∈ logs, IsLine s := by
  induction out with
  | nil => exact ⟨[], rfl, by simp⟩
  | cons e es ih =>
    obtain ⟨s, rfl, hs⟩ := h e (List.mem_cons_self _ _)
    obtain ⟨logs, rfl, hl⟩ := ih (fun e he => h e (List.mem_cons_of_mem _ he))
    refine ⟨s :: logs, rfl, ?_⟩
    intro t ht
    rcases List.mem_cons.mp ht with rfl | ht
    · exact hs
    · exact hl t ht

/-- Any run of the loop from a drained reader returns a result (the fuel is
enough), which is lines only while the handler is still blocked, and lines
followed by at most one `error` once it has returned. -/
theorem tailRun_shape : ∀ (acts : List Action) (fs : FS) (h : Handle), h.buf = [] →
    ∃ out st, tailRun fs h acts = some (out, st) ∧
      ((∃ fs1 h1, st = some (fs1, h1) ∧ Logs out ∧ h1.buf = [])
        ∨ (st = none ∧ ∃ ls tl, out = ls ++ tl ∧ Logs ls ∧
            (tl = [] ∨ ∃ k, tl = [SSE.error k]))) := by
  intro acts
  induction acts with
  | nil =>
    intro fs h hb
    exact ⟨_, _, rfl, Or.inl ⟨fs, h, rfl, Logs_nil, hb⟩⟩
  | cons a rest ih =>
    intro fs h hb
    cases a with
    | env f => simpa [tailRun] using ih (f fs) h hb
    | done => exact ⟨_, _, rfl, Or.inr ⟨rfl, [], [], rfl, Logs_nil, Or.inl rfl⟩⟩
    | eventsClosed => exact ⟨_, _, rfl, Or.inr ⟨rfl, [], [], rfl, Logs_nil, Or.inl rfl⟩⟩
    | errorsClosed => exact ⟨_, _, rfl, Or.inr ⟨rfl, [], [], rfl, Logs_nil, Or.inl rfl⟩⟩
    | watchErr => exact ⟨_, _, rfl, Or.inr ⟨rfl, [], _, rfl, Logs_nil, Or.inr ⟨_, rfl⟩⟩⟩
    | event op ft =>
      obtain ⟨out, st, h0, hsh⟩ := onEvent_shape fs ft op h
      rw [tailRun, h0]
      rcases hsh with ⟨h1, rfl, hl, hb1⟩ | ⟨rfl, ls, k, rfl, hl⟩
      · obtain ⟨out2, st2, h2, hsh2⟩ := ih fs h1 (hb1 hb)
        simp only [h2]
        refine ⟨_, _, rfl, ?_⟩
        rcases hsh2 with ⟨fs2, h3, rfl, hl2, hb2⟩ | ⟨rfl, ls, tl, rfl, hl2, htl⟩
        · exact Or.inl ⟨fs2, h3, rfl, Logs_append hl hl2, hb2⟩
        · exact Or.inr ⟨rfl, out ++ ls, tl, by simp, Logs_append hl hl2, htl⟩
      · exact ⟨_, _, rfl, Or.inr ⟨rfl, ls, _, rfl, hl, Or.inr ⟨k, rfl⟩⟩⟩

/-- A run over `xs ++ ys` is the run over `xs` continued, when it is still
blocked, by the run over `ys`. -/
theorem tailRun_append : ∀ (xs ys : List Action) (fs : FS) (h : Handle),
    tailRun fs h (xs ++ ys) =
      match tailRun fs h xs with
      | some (out, some (fs1, h1)) =>
        (tailRun fs1 h1 ys).map (fun r => (out ++ r.1, r.2))
      | r => r := by
  intro xs
  induction xs with
  | nil =>
    intro ys fs h
    simp only [List.nil_append, tailRun]
    cases tailRun fs h ys <;> simp
  | cons a rest ih =>
    intro ys fs h
    cases a with
    | env f => simpa [tailRun] using ih ys (f fs) h
    | done => rfl
    | eventsClosed => rfl
    | errorsClosed => rfl
    | watchErr => rfl
    | event op ft =>
      rw [List.cons_append, tailRun, tailRun]
      cases onEvent fs ft op h with
      | none => rfl
      | some r =>
        obtain ⟨out, st⟩ := r
        cases st with
        | none => rfl
        | some h1 =>
          simp only
          rw [ih ys fs h1]
          cases tailRun fs h1 rest with
          | none => rfl
          | some r1 =>
            obtain ⟨out1, st1⟩ := r1
            cases st1 with
            | none => rfl
            | some p =>
              obtain ⟨fs2, h2⟩ := p
              simp only
              cases tailRun fs2 h2 ys with
              | none => rfl
              | some r2 => simp

theorem onEvent_write (fs : FS) (ft : Faults) (op : Op) (h : Handle)
    (hw : (op.write || op.create) = true) (hr : (op.remove || op.rename) = false) :
    onEvent fs ft op h = onWrite fs ft h := by
  unfold onEvent
  simp only [hw, if_true, hr]
  cases onWrite fs ft h with
  | none => rfl
  | some r =>
    obtain ⟨out, st⟩ := r
    cases st <;> simp

theorem onEvent_remove (fs : FS) (ft : Faults) (op : Op) (h : Handle)
    (hw : (op.write || op.create) = false) (hr : (op.remove || op.rename) = true) :
    onEvent fs ft op h = some (onRemove fs ft) := by
  unfold onEvent
  simp [hw, hr]

theorem linesFrom_append_nl (a b : List Byte) :
    ∀ cur, linesFrom cur (a ++ NL :: b) = linesFrom cur (a ++ [NL]) ++ linesFrom [] b := by
  induction a with
  | nil => intro cur; simp [linesFrom]
  | cons x xs ih =>
    intro cur
    simp only [List.cons_append, linesFrom]
    by_cases hx : x = NL
    · simp only [hx, if_true, List.cons_append, List.cons.injEq, true_and]
      exact ih []
    · simp only [hx, if_false]
      exact ih _

theorem completeLines_append_aligned {a : List Byte} (b : List Byte) (ha : LineAligned a) :
    completeLines (a ++ b) = completeLines a ++ completeLines b := by
  rcases ha with rfl | ⟨x, rfl⟩
  · simp [completeLines, linesFrom]
  · simp only [completeLines, List.append_assoc, List.singleton_append]
    exact linesFrom_append_nl x b []

theorem linesPerChunk_aligned : ∀ (chunks : List (List Byte)),
    (∀ a ∈ chunks, LineAligned a) → linesPerChunk chunks = completeLines chunks.flatten := by
  intro chunks
  induction chunks with
  | nil => intro _; simp [linesPerChunk, completeLines, linesFrom]
  | cons a rest ih =>
    intro hal
    rw [linesPerChunk, List.flatten_cons,
      completeLines_append_aligned _ (hal a (List.mem_cons_self _ _)),
      ih (fun x hx => hal x (List.mem_cons_of_mem _ hx))]

theorem FS.append_active (bs : List Byte) (fs : FS) (i : Nat) (hi : fs.active = some i) :
    (FS.append bs fs).active = some i ∧ (FS.append bs fs).data i = fs.data i ++ bs ∧
      (FS.append bs fs).fresh = fs.fresh ∧
      ∀ j, j ≠ i → (FS.append bs fs).data j = fs.data j := by
  simp only [FS.append, hi]
  refine ⟨trivial, by simp, trivial, ?_⟩
  intro j hj
  simp [Function.update, hj]

/-- A session that has consumed the whole active file, then a history of
appends each followed by a Write event: the emitted events are the complete
lines of each appended chunk, chunk after chunk, and the session has again
consumed the whole file. -/
theorem tailRun_observed : ∀ (chunks : List (List Byte)) (fs : FS) (h : Handle),
    fs.active = some h.ino → h.buf = [] → h.off = (fs.data h.ino).length →
    tailRun fs h (observed chunks) = some ((linesPerChunk chunks).map SSE.log,
      some (appendAll chunks fs,
        { ino := h.ino, off := ((appendAll chunks fs).data h.ino).length, buf := [] })) := by
  intro chunks
  induction chunks with
  | nil =>
    intro fs h _ hb ho
    simp only [observed, tailRun, linesPerChunk, appendAll, List.map_nil]
    cases h
    simp only at hb ho
    simp [hb, ho]
  | cons a rest ih =>
    intro fs h ha hb ho
    obtain ⟨h1, h2, _, _⟩ := FS.append_active a fs h.ino ha
    have hev : onEvent (FS.append a fs) Faults.ok Op.onlyWrite h = some
        ((completeLines a).map SSE.log,
          some { ino := h.ino, off := ((FS.append a fs).data h.ino).length, buf := [] }) := by
      rw [onEvent_write _ Faults.ok Op.onlyWrite h rfl rfl, onWrite_clean _ _ hb, h2, ho]
      simp
    have hrec := ih (FS.append a fs)
      { ino := h.ino, off := ((FS.append a fs).data h.ino).length, buf := [] } h1 rfl rfl
    simp only [observed, tailRun, wr, hev, hrec, linesPerChunk, appendAll, List.map_append]

theorem onWrite_congr (fs : FS) (ft : Faults) (h h2 : Handle)
    (he : truncCheck fs ft h = truncCheck fs ft h2) : onWrite fs ft h = onWrite fs ft h2 := by
  simp only [onWrite, he]

theorem onEvent_congr (fs : FS) (ft : Faults) (op : Op) (h h2 : Handle)
    (hw : (op.write || op.create) = true)
    (he : truncCheck fs ft h = truncCheck fs ft h2) : onEvent fs ft op h = onEvent fs ft op h2 := by
  simp only [onEvent, hw, if_true, onWrite_congr fs ft h h2 he]

theorem FS.reset_active (fs : FS) (i : Nat) (hi : fs.active = some i) :
    (FS.reset fs).active = some i ∧ (FS.reset fs).data i = [] := by
  simp [FS.reset, hi]

theorem openLogFile_some {fs : FS} {ft : Faults} {h : Handle}
    (ho : openLogFile fs ft = some h) :
    h.buf = [] ∧ fs.active = some h.ino ∧ h.off = (fs.data h.ino).length := by
  unfold openLogFile at ho
  cases ha : fs.active with
  | none => simp [ha] at ho
  | some i =>
    simp only [ha] at ho
    by_cases h1 : ft.openF = true
    · simp [h1] at ho
    · by_cases h2 : ft.seekEnd = true
      · simp [h1, h2] at ho
      · simp only [h1, h2] at ho
        simp only [Bool.false_eq_true, if_false, Option.some.injEq] at ho
        subst ho
        exact ⟨rfl, rfl, rfl⟩

theorem tailRun_done (fs : FS) (h : Handle) (acts post : List Action) :
    tailRun fs h (acts ++ Action.done :: post) =
      match tailRun fs h acts with
      | some (out, some _) => some (out, none)
      | r => r := by
  rw [tailRun_append]
  cases tailRun fs h acts with
  | none => rfl
  | some r =>
    obtain ⟨out, st⟩ := r
    cases st with
    | none => rfl
    | some p =>
      obtain ⟨fs1, h1⟩ := p
      simp [tailRun]

/-! ## Lemmas: the bytes before the point of attachment are never read -/

theorem onWrite_rel (fs fs2 : FS) (ft : Faults) (h : Handle) (k : Nat)
    (hlen : (fs2.data h.ino).length = (fs.data h.ino).length)
    (hd : fs2.data h.ino = fs.data h.ino ∨
      ((fs2.data h.ino).drop k = (fs.data h.ino).drop k ∧
        k ≤ h.off ∧ h.off ≤ (fs.data h.ino).length)) :
    onWrite fs2 ft h = onWrite fs ft h := by
  rcases hd with he | ⟨hdk, hk, hoff⟩
  · have ht : truncCheck fs2 ft h = truncCheck fs ft h := by simp only [truncCheck, he]
    simp only [onWrite, ht, truncCheck_ino, he]
  · have ht : ∀ g : FS, (g.data h.ino).length = (fs.data h.ino).length →
        truncCheck g ft h = h := by
      intro g hg
      unfold truncCheck
      split
      · rfl
      · rw [hg, if_neg (Nat.not_lt.mpr hoff)]
    have hdo : (fs2.data h.ino).drop h.off = (fs.data h.ino).drop h.off := by
      have e : h.off = k + (h.off - k) := by omega
      rw [e, ← List.drop_drop, ← List.drop_drop, hdk]
    simp only [onWrite, ht fs rfl, ht fs2 hlen, readFuel, hlen]
    exact readLoop_congr _ _ _ hlen _ _ hdo

theorem onWrite_some_handle {fs : FS} {ft : Faults} {h h1 : Handle} {out : List SSE}
    (hw : onWrite fs ft h = some (out, some h1)) :
    h1 = { ino := h.ino,
           off := max (truncCheck fs ft h).off (fs.data h.ino).length, buf := [] } := by
  rcases onWrite_spec fs ft h with h0 | ⟨_, ls, _, h0⟩
  · rw [h0] at hw
    simp only [Option.some.injEq, Prod.mk.injEq] at hw
    exact hw.2.symm
  · rw [h0] at hw
    simp at hw

theorem onRemove_rel (fs fs2 : FS) (ft : Faults) (i k : Nat) (h : Handle)
    (hr : Rel i k fs fs2 h) : onRemove fs2 ft = onRemove fs ft := by
  obtain ⟨ha, _, _, hj, hl, _⟩ := hr
  unfold onRemove openLogFile
  rw [ha]
  cases hact : fs.active with
  | none => rfl
  | some a =>
    simp only
    by_cases hai : a = i
    · rw [hai, hl]
    · rw [hj a hai]

theorem Rel_handle {i k : Nat} {fs fs2 : FS} {h : Handle} (h2 : Handle)
    (hr : Rel i k fs fs2 h)
    (hh : (h.ino = i → k ≤ h.off ∧ h.off ≤ (fs.data i).length) → k ≤ (fs.data i).length →
      h2.ino = i → k ≤ h2.off ∧ h2.off ≤ (fs.data i).length) :
    Rel i k fs fs2 h2 := by
  obtain ⟨ha, hf, hi, hj, hl, hd⟩ := hr
  refine ⟨ha, hf, hi, hj, hl, ?_⟩
  rcases hd with he | ⟨hdk, hk, hold⟩
  · exact Or.inl he
  · exact Or.inr ⟨hdk, hk, hh hold hk⟩

/-- One event gives the same result on both file systems, and the handle it
leaves is again past the bytes in which they differ. -/
theorem onEvent_rel (fs fs2 : FS) (ft : Faults) (op : Op) (i k : Nat) (h : Handle)
    (hr : Rel i k fs fs2 h) :
    onEvent fs2 ft op h = onEvent fs ft op h ∧
      ∀ out h1, onEvent fs ft op h = some (out, some h1) → Rel i k fs fs2 h1 := by
  have hrem := onRemove_rel fs fs2 ft i k h hr
  have hwr : onWrite fs2 ft h = onWrite fs ft h := by
    obtain ⟨_, _, _, hj, hl, hd⟩ := hr
    by_cases hi : h.ino = i
    · refine onWrite_rel fs fs2 ft h k (by rw [hi]; exact hl) ?_
      rcases hd with he | ⟨hdk, _, hoff⟩
      · exact Or.inl (by rw [hi]; exact he)
      · exact Or.inr ⟨by rw [hi]; exact hdk, by rw [hi]; exact hoff hi⟩
    · exact onWrite_rel fs fs2 ft h k (by rw [hj _ hi]) (Or.inl (hj _ hi))
  have hrelRemove : ∀ h2, (onRemove fs ft).2 = some h2 → Rel i k fs fs2 h2 := by
    intro h2 e2
    rcases onRemove_shape fs ft with ⟨h3, e3, _, hact, hoff⟩ | ⟨kk, e3⟩
    · rw [e3] at e2
      simp only [Option.some.injEq] at e2
      subst e2
      refine Rel_handle h3 hr ?_
      intro _ hk e
      rw [hoff, e]
      exact ⟨hk, le_refl _⟩
    · rw [e3] at e2; simp at e2
  have hrelWrite : ∀ out h1, onWrite fs ft h = some (out, some h1) → Rel i k fs fs2 h1 := by
    intro out h1 hw
    have e := onWrite_some_handle hw
    refine Rel_handle h1 hr ?_
    intro hold hk e1
    rw [e] at e1 ⊢
    simp only at e1 ⊢
    obtain ⟨hko, hol⟩ := hold e1
    rw [e1]
    have ht : (truncCheck fs ft h).off = h.off := by
      unfold truncCheck
      split
      · rfl
      · rw [e1, if_neg (Nat.not_lt.mpr hol)]
    rw [ht, Nat.max_eq_right hol]
    exact ⟨hk, le_refl _⟩
  refine ⟨?_, ?_⟩
  · simp only [onEvent, hwr, hrem]
  · intro out h1 hev
    unfold onEvent at hev
    by_cases hw : (op.write || op.create) = true
    · simp only [hw, if_true] at hev
      cases hwres : onWrite fs ft h with
      | none => simp [hwres] at hev
      | some r =>
        obtain ⟨o1, st1⟩ := r
        rw [hwres] at hev
        cases st1 with
        | none => simp at hev
        | some hwh =>
          simp only at hev
          by_cases hrm : (op.remove || op.rename) = true
          · simp only [hrm, if_true, Option.some.injEq, Prod.mk.injEq] at hev
            exact hrelRemove h1 hev.2
          · simp only [hrm, Bool.false_eq_true, if_false, Option.some.injEq, Prod.mk.injEq,
              ] at hev
            obtain ⟨_, e⟩ := hev
            subst e
            exact hrelWrite o1 _ hwres
    · simp only [hw, Bool.false_eq_true, if_false] at hev
      by_cases hrm : (op.remove || op.rename) = true
      · simp only [hrm, if_true, Option.some.injEq, Prod.mk.injEq] at hev
        exact hrelRemove h1 hev.2
      · simp only [hrm, Bool.false_eq_true, if_false, Option.some.injEq, Prod.mk.injEq] at hev
        obtain ⟨_, e⟩ := hev
        subst e
        exact hr

theorem Rel_append {i k : Nat} {fs fs2 : FS} {h : Handle} (bs : List Byte)
    (hr : Rel i k fs fs2 h) : Rel i k (FS.append bs fs) (FS.append bs fs2) h := by
  obtain ⟨ha, hf, hi, hj, hl, hd⟩ := hr
  unfold FS.append
  rw [ha, hf]
  cases hact : fs.active with
  | none =>
    have hne : i ≠ fs.fresh := Nat.ne_of_lt hi
    refine ⟨rfl, rfl, Nat.lt_succ_of_lt hi, ?_, ?_, ?_⟩
    · intro j hji
      by_cases hjf : j = fs.fresh
      · subst hjf; simp
      · simp [Function.update, hjf, hj j hji]
    · simp [Function.update, hne, hl]
    · simp only [Function.update, hne, dite_false]
      exact hd
  | some a =>
    by_cases hai : a = i
    · subst hai
      refine ⟨rfl, rfl, hi, ?_, ?_, ?_⟩
      · intro j hji
        simp [Function.update, hji, hj j hji]
      · simp [hl]
      · simp only [Function.update_same]
        rcases hd with he | ⟨hdk, hk, hold⟩
        · exact Or.inl (by rw [he])
        · refine Or.inr ⟨?_, ?_, ?_⟩
          · rw [List.drop_append_of_le_length (by omega),
              List.drop_append_of_le_length hk, hdk]
          · simp only [List.length_append]; omega
          · intro e
            obtain ⟨h1, h2⟩ := hold e
            simp only [List.length_append]
            exact ⟨h1, by omega⟩
    · have hia : i ≠ a := fun e => hai e.symm
      refine ⟨rfl, rfl, hi, ?_, ?_, ?_⟩
      · intro j hji
        by_cases hja : j = a
        · subst hja; simp [hj j hji]
        · simp [Function.update, hja, hj j hji]
      · simp [Function.update, hia, hl]
      · simp only [Function.update, hia, dite_false]
        exact hd

theorem Rel_reset {i k : Nat} {fs fs2 : FS} {h : Handle}
    (hr : Rel i k fs fs2 h) : Rel i k (FS.reset fs) (FS.reset fs2) h := by
  obtain ⟨ha, hf, hi, hj, hl, hd⟩ := hr
  unfold FS.reset
  rw [ha]
  cases hact : fs.active with
  | none => exact ⟨by rw [ha, hact], hf, hi, hj, hl, hd⟩
  | some a =>
    by_cases hai : a = i
    · subst hai
      refine ⟨by simp [ha, hact], hf, hi, ?_, by simp, Or.inl (by simp)⟩
      intro j hji
      simp [Function.update, hji, hj j hji]
    · have hia : i ≠ a := fun e => hai e.symm
      refine ⟨by simp [ha, hact], hf, hi, ?_, ?_, ?_⟩
      · intro j hji
        by_cases hja : j = a
        · subst hja; simp
        · simp [Function.update, hja, hj j hji]
      · simp [Function.update, hia, hl]
      · simp only [Function.update, hia, dite_false]
        exact hd

theorem Rel_rotate {i k : Nat} {fs fs2 : FS} {h : Handle}
    (hr : Rel i k fs fs2 h) : Rel i k (FS.rotate fs) (FS.rotate fs2) h := by
  obtain ⟨ha, hf, hi, hj, hl, hd⟩ := hr
  unfold FS.rotate
  rw [hf]
  have hne : i ≠ fs.fresh := Nat.ne_of_lt hi
  refine ⟨rfl, rfl, Nat.lt_succ_of_lt hi, ?_, ?_, ?_⟩
  · intro j hji
    by_cases hjf : j = fs.fresh
    · subst hjf; simp
    · simp [Function.update, hjf, hj j hji]
  · simp [Function.update, hne, hl]
  · simp only [Function.update, hne, dite_false]
    exact hd

/-- Two runs over the same history, on file systems that differ only in
bytes which the handle is past, emit the same events. -/
theorem tailRun_rel (i k : Nat) : ∀ (steps : List Step) (fs fs2 : FS) (h : Handle),
    Rel i k fs fs2 h →
      emitted (tailRun fs2 h (steps.map Step.toAction))
        = emitted (tailRun fs h (steps.map Step.toAction)) := by
  intro steps
  induction steps with
  | nil => intro fs fs2 h _; rfl
  | cons st rest ih =>
    intro fs fs2 h hr
    cases st with
    | append bs => exact ih _ _ h (Rel_append bs hr)
    | reset => exact ih _ _ h (Rel_reset hr)
    | rotate => exact ih _ _ h (Rel_rotate hr)
    | done => rfl
    | eventsClosed => rfl
    | errorsClosed => rfl
    | watchErr => rfl
    | event op ft =>
      obtain ⟨he, hnext⟩ := onEvent_rel fs fs2 ft op i k h hr
      simp only [List.map_cons, Step.toAction, tailRun, he]
      cases hev : onEvent fs ft op h with
      | none => rfl
      | some r =>
        obtain ⟨out, st1⟩ := r
        cases st1 with
        | none => rfl
        | some h1 =>
          have hrec := ih fs fs2 h1 (hnext out h1 hev)
          simp only
          revert hrec
          cases tailRun fs2 h1 (rest.map Step.toAction) <;>
            cases tailRun fs h1 (rest.map Step.toAction) <;>
            simp [emitted]

theorem appendAll_data : ∀ (chunks : List (List Byte)) (fs : FS) (i : Nat),
    fs.active = some i → (appendAll chunks fs).data i = fs.data i ++ chunks.flatten := by
  intro chunks
  induction chunks with
  | nil => intro fs i _; simp [appendAll]
  | cons a rest ih =>
    intro fs i hi
    obtain ⟨h1, h2, _, _⟩ := FS.append_active a fs i hi
    rw [appendAll, ih _ i h1, h2]
    simp

theorem Rel_withContent (fs : FS) (i : Nat) (c2 : List Byte) (h : Handle)
    (hfresh : i < fs.fresh) (hlen : c2.length = (fs.data i).length)
    (hoff : h.off = (fs.data i).length) :
    Rel i (fs.data i).length fs (fs.withContent i c2) h := by
  refine ⟨rfl, rfl, hfresh, ?_, ?_, Or.inr ⟨?_, le_refl _, fun _ => ?_⟩⟩
  · intro j hj
    simp [FS.withContent, Function.update, hj]
  · simp [FS.withContent, hlen]
  · simp only [FS.withContent, Function.update_same]
    rw [List.drop_length, ← hlen, List.drop_length]
  · rw [hoff]; exact ⟨le_refl _, le_refl _⟩

/-! ## Lemmas: the directory -/

theorem Disk.lookup_truncate (p n : List Byte) (d : Disk) :
    (Disk.truncate p d).lookup n
      = if n = p then (d.lookup p).map (fun _ => []) else d.lookup n := by
  induction d with
  | nil => simp [Disk.truncate, Disk.lookup]
  | cons e rest ih =>
    obtain ⟨a, c⟩ := e
    show Disk.lookup ((if a = p then (a, []) else (a, c)) :: Disk.truncate p rest) n
      = if n = p then (Disk.lookup ((a, c) :: rest) p).map (fun _ => [])
        else Disk.lookup ((a, c) :: rest) n
    by_cases hap : a = p
    · subst hap
      by_cases hna : n = a
      · subst hna
        simp [Disk.lookup]
      · have han : ¬ a = n := fun h => hna h.symm
        simp only [Disk.lookup, if_true, han, if_false, hna]
        rw [ih, if_neg hna]
    · by_cases han : a = n
      · subst han
        simp [Disk.lookup, hap]
      · simp only [Disk.lookup, hap, if_false, han]
        rw [ih]

theorem Disk.lookup_remove (m n : List Byte) (d : Disk) :
    (Disk.remove m d).lookup n = if n = m then none else d.lookup n := by
  induction d with
  | nil => simp [Disk.remove, Disk.lookup]
  | cons e rest ih =>
    obtain ⟨a, c⟩ := e
    by_cases ham : a = m
    · subst ham
      have e1 : Disk.remove a ((a, c) :: rest) = Disk.remove a rest := by
        simp [Disk.remove]
      rw [e1, ih]
      by_cases hna : n = a
      · simp [hna]
      · have han : ¬ a = n := fun h => hna h.symm
        simp [hna, Disk.lookup, han]
    · have e1 : Disk.remove m ((a, c) :: rest) = (a, c) :: Disk.remove m rest := by
        simp [Disk.remove, ham]
      rw [e1]
      by_cases han : a = n
      · subst han
        simp [Disk.lookup, ham]
      · simp only [Disk.lookup, han, if_false]
        rw [ih]

theorem Disk.names_truncate (p : List Byte) (d : Disk) :
    (Disk.truncate p d).names = d.names := by
  induction d with
  | nil => rfl
  | cons e rest ih =>
    have ih1 : List.map Prod.fst (List.map (fun e => if e.1 = p then (e.1, []) else e) rest)
        = List.map Prod.fst rest := ih
    simp only [Disk.truncate, Disk.names, List.map_cons, ih1]
    by_cases hep : e.1 = p <;> simp [hep]

theorem Disk.lookup_ne_none_iff (n : List Byte) (d : Disk) :
    d.lookup n ≠ none ↔ n ∈ d.names := by
  induction d with
  | nil => simp [Disk.lookup, Disk.names]
  | cons e rest ih =>
    have ih1 : Disk.lookup rest n ≠ none ↔ n ∈ List.map Prod.fst rest := ih
    simp only [Disk.lookup, Disk.names, List.map_cons, List.mem_cons]
    by_cases hen : e.1 = n
    · simp [hen]
    · have hne : ¬ n = e.1 := fun h => hen h.symm
      simp only [hen, if_false, hne, false_or]
      exact ih1

theorem globNames_spec (pattern : List Byte) :
    ∀ (ns ms : List (List Byte)), globNames pattern ns = some ms →
      ms = ns.filter (fun n => decide (Match pattern n = some true)) := by
  intro ns
  induction ns with
  | nil => intro ms h; simp [globNames] at h; simp [h]
  | cons n rest ih =>
    intro ms h
    simp only [globNames] at h
    cases hm : Match pattern n with
    | none => simp [hm] at h
    | some b =>
      cases hg : globNames pattern rest with
      | none => simp [hm, hg] at h
      | some ms1 =>
        simp only [hm, hg, Option.some.injEq] at h
        have := ih ms1 hg
        subst h
        cases b <;> simp [List.filter_cons, hm, this]

theorem lookup_removeAll : ∀ (ms : List (List Byte)) (d : Disk) (n : List Byte),
    (removeAll ms d).lookup n = if n ∈ ms then none else d.lookup n := by
  intro ms
  induction ms with
  | nil => intro d n; simp [removeAll]
  | cons m rest ih =>
    intro d n
    have ih1 := ih (Disk.remove m d) n
    simp only [removeAll, List.foldl_cons] at ih1 ⊢
    rw [ih1, Disk.lookup_remove]
    by_cases hnr : n ∈ rest
    · simp [hnr]
    · by_cases hnm : n = m
      · simp [hnm]
      · simp [hnr, hnm]

/-- The loop over the matches goes through a first part of the matches in
which no removal fails, removing them. -/
theorem removeMatches_append (io : DiskFaults) :
    ∀ (ms1 rest : List (List Byte)) (d : Disk), (ms1 ++ rest).Nodup →
      (∀ x ∈ ms1 ++ rest, d.lookup x ≠ none) → (∀ x ∈ ms1, io.remove x = false) →
      removeMatches io (ms1 ++ rest) d = removeMatches io rest (removeAll ms1 d)
      ∧ ∀ x ∈ rest, (removeAll ms1 d).lookup x ≠ none := by
  intro ms1
  induction ms1 with
  | nil => intro rest d _ hex _; exact ⟨rfl, by simpa [removeAll] using hex⟩
  | cons m xs ih =>
    intro rest d hnd hex hio
    rw [List.cons_append] at hnd hex
    obtain ⟨hm, hnd1⟩ := List.nodup_cons.mp hnd
    have hex1 : ∀ x ∈ xs ++ rest, (Disk.remove m d).lookup x ≠ none := by
      intro x hx
      rw [Disk.lookup_remove]
      have hxm : ¬ x = m := fun h => hm (h ▸ hx)
      simpa [hxm] using hex x (List.mem_cons_of_mem _ hx)
    obtain ⟨h1, h2⟩ := ih rest (Disk.remove m d) hnd1 hex1
      (fun x hx => hio x (List.mem_cons_of_mem _ hx))
    have hc : ¬ (io.remove m = true ∨ d.lookup m = none) := by
      have := hio m (List.mem_cons_self _ _)
      have := hex m (List.mem_cons_self _ _)
      simp_all
    refine ⟨?_, ?_⟩
    · rw [List.cons_append, removeMatches, if_neg hc, h1]; rfl
    · exact h2

/-- The directory after the `Stat`/`Truncate` step of `ResetLogFile`. -/
theorem lookup_after_truncate (path n : List Byte) (d : Disk) :
    (if (d.lookup path).isSome then d.truncate path else d).lookup n
      = if n = path then (d.lookup path).map (fun _ => []) else d.lookup n := by
  cases hp : d.lookup path with
  | none =>
    by_cases hn : n = path
    · simp [hn, hp]
    · simp [hn]
  | some c =>
    simp only [Option.isSome_some, if_true]
    rw [Disk.lookup_truncate, hp]

theorem names_after_truncate (path : List Byte) (d : Disk) :
    (if (d.lookup path).isSome then d.truncate path else d).names = d.names := by
  split
  · exact Disk.names_truncate path d
  · rfl

theorem Glob_spec {io : DiskFaults} {pattern : List Byte} {d : Disk}
    {ms : List (List Byte)} (h : Glob io pattern d = some ms) :
    (io.readdir = true ∧ ms = [])
    ∨ (io.readdir = false ∧
        ms = d.names.filter (fun n => decide (Match pattern n = some true))) := by
  unfold Glob at h
  by_cases hb : Match (logDir ++ pattern) [] = none
  · simp [hb] at h
  · simp only [hb, if_false] at h
    by_cases hr : io.readdir = true
    · simp only [hr, if_true, Option.some.injEq] at h
      exact Or.inl ⟨hr, h.symm⟩
    · simp only [hr] at h
      exact Or.inr ⟨by simpa using hr, globNames_spec pattern _ _ h⟩

theorem Glob_names {io : DiskFaults} {pattern : List Byte} {d d1 : Disk}
    (hn : d1.names = d.names) : Glob io pattern d1 = Glob io pattern d := by
  simp only [Glob, hn]

/-- The matches returned by `Glob` are distinct names of files that exist. -/
theorem Glob_matches {io : DiskFaults} {pattern : List Byte} {d : Disk}
    {ms : List (List Byte)} (hnd : d.names.Nodup) (h : Glob io pattern d = some ms) :
    ms.Nodup ∧ ∀ x ∈ ms, d.lookup x ≠ none := by
  rcases Glob_spec h with ⟨_, rfl⟩ | ⟨_, rfl⟩
  · exact ⟨List.nodup_nil, by simp⟩
  · refine ⟨hnd.filter _, ?_⟩
    intro x hx
    exact (Disk.lookup_ne_none_iff x d).mpr (List.mem_filter.mp hx).1

/-- With no call failing and `Glob` returning the matches `ms`, `ResetLogFile`
returns success and leaves the directory truncated at the path and without
the matches. -/
theorem ResetLogFile_ok (d : Disk) (path : List Byte) (ms : List (List Byte))
    (hnd : d.names.Nodup) (hms : Glob DiskFaults.ok (backupPattern path) d = some ms) :
    ResetLogFile DiskFaults.ok path d
      = (removeAll ms (if (d.lookup path).isSome then d.truncate path else d), none) := by
  have hn1 := names_after_truncate path d
  have hms1 : Glob DiskFaults.ok (backupPattern path)
      (if (d.lookup path).isSome then d.truncate path else d) = some ms := by
    rw [Glob_names hn1, hms]
  obtain ⟨hmsnd, hmsex⟩ := Glob_matches (by rw [hn1]; exact hnd) hms1
  obtain ⟨happ, _⟩ := removeMatches_append DiskFaults.ok ms []
    (if (d.lookup path).isSome then d.truncate path else d)
    (by simpa using hmsnd) (by simpa using hmsex) (fun _ _ => rfl)
  rw [List.append_nil] at happ
  unfold ResetLogFile
  simp only [DiskFaults.ok, Bool.false_eq_true, if_false, and_false] at hms1 happ ⊢
  rw [hms1]
  simp only [happ, removeMatches]

/-- The directory truncated at the path and without the names that match the
pattern, looked up at a name, when the path itself does not match. -/
theorem lookup_reset_result (d : Disk) (path n : List Byte) (ms : List (List Byte))
    (hfilter : ms = d.names.filter
      (fun x => decide (Match (backupPattern path) x = some true)))
    (hself : Match (backupPattern path) path ≠ some true) :
    (removeAll ms (if (d.lookup path).isSome then d.truncate path else d)).lookup n
      = if n = path then (d.lookup path).map (fun _ => [])
        else if Match (backupPattern path) n = some true then none
        else d.lookup n := by
  rw [lookup_removeAll, lookup_after_truncate]
  by_cases hnp : n = path
  · subst hnp
    have : n ∉ ms := by
      rw [hfilter]
      intro hmem
      have := (List.mem_filter.mp hmem).2
      simp only [decide_eq_true_eq] at this
      exact hself this
    simp [this]
  · simp only [hnp, if_false]
    by_cases hm : Match (backupPattern path) n = some true
    · simp only [hm, if_true]
      by_cases hmem : n ∈ ms
      · simp [hmem]
      · simp only [hmem, if_false]
        have hnn : n ∉ d.names := by
          intro hin
          apply hmem
          rw [hfilter]
          exact List.mem_filter.mpr ⟨hin, by simpa using hm⟩
        by_contra hne
        exact hnn ((Disk.lookup_ne_none_iff n d).mp hne)
    · have hmem : n ∉ ms := by
        rw [hfilter]
        intro hin
        have := (List.mem_filter.mp hin).2
        simp only [decide_eq_true_eq] at this
        exact hm this
      simp [hmem, hm]

theorem Glob_ok_filter {pattern : List Byte} {d : Disk} {ms : List (List Byte)}
    (hms : Glob DiskFaults.ok pattern d = some ms) :
    ms = d.names.filter (fun x => decide (Match pattern x = some true)) := by
  rcases Glob_spec hms with ⟨hr, _⟩ | ⟨_, hf⟩
  · simp [DiskFaults.ok] at hr
  · exact hf

/-! ## Lemmas: the backup pattern of a plain path -/

/-- The model of `Match` on entries of the table of the library's own test
(`match_test.go`): stars, `?`, bracket expressions, escapes, separators,
malformed patterns and names that are not ASCII (the bytes 226 152 186 are
one rune, as are 206 182 and 206 177); and on a pattern whose malformed
remainder is never reached. -/
theorem Match_library_examples :
    Match (bytes "abc") (bytes "abc") = some true
    ∧ Match (bytes "a*") (bytes "ab/c") = some false
    ∧ Match (bytes "a*/b") (bytes "abc/b") = some true
    ∧ Match (bytes "a*b*c*d*e*/f") (bytes "axbxcxdxexxx/f") = some true
    ∧ Match (bytes "a*b?c*x") (bytes "abxbbxdbxebxczzx") = some true
    ∧ Match (bytes "a*b?c*x") (bytes "abxbbxdbxebxczzy") = some false
    ∧ Match (bytes "ab[b-d]") (bytes "abc") = some true
    ∧ Match (bytes "ab[^e-g]") (bytes "abc") = some true
    ∧ Match (bytes "a\\*b") (bytes "a*b") = some true
    ∧ Match (bytes "a?b") (bytes "a/b") = some false
    ∧ Match (bytes "[\\]a]") (bytes "]") = some true
    ∧ Match (bytes "[x\\-]") (bytes "-") = some true
    ∧ Match (bytes "[]a]") (bytes "]") = none
    ∧ Match (bytes "[x-]") (bytes "z") = none
    ∧ Match (bytes "[a-b-c]") (bytes "a") = none
    ∧ Match (bytes "a[") (bytes "x") = none
    ∧ Match (bytes "*x") (bytes "xxx") = some true
    ∧ Match (bytes "a*[") (bytes "b") = some false
    ∧ Match (bytes "a?b") [97, 226, 152, 186, 98] = some true
    ∧ Match (bytes "a???b") [97, 226, 152, 186, 98] = some false
    ∧ Match (bytes "a[^a]b") [97, 226, 152, 186, 98] = some true
    ∧ Match ([91, 97, 45, 206, 182, 93, 42]) [206, 177] = some true := by
  decide

theorem matchChunkAux_literal : ∀ (L : List Byte) (fuel : Nat) (s : Option (List Byte)),
    L.length < fuel → cQuery ∉ L → cOpen ∉ L → cBackslash ∉ L →
    matchChunkAux fuel L s =
      match s with
      | some x => if L.isPrefixOf x then ChunkRes.ok (x.drop L.length) else ChunkRes.no
      | none => ChunkRes.no := by
  intro L
  induction L with
  | nil =>
    intro fuel s hf _ _ _
    obtain ⟨f, rfl⟩ : ∃ f, fuel = f + 1 := ⟨fuel - 1, by simp at hf; omega⟩
    cases s with
    | none => simp [matchChunkAux]
    | some x => simp [matchChunkAux]
  | cons c p ih =>
    intro fuel s hf hq ho hb
    obtain ⟨f, rfl⟩ : ∃ f, fuel = f + 1 := ⟨fuel - 1, by simp at hf; omega⟩
    have hf1 : p.length < f := by simp at hf; omega
    have hcq : ¬ c = cQuery := fun h => hq (h ▸ List.mem_cons_self _ _)
    have hco : ¬ c = cOpen := fun h => ho (h ▸ List.mem_cons_self _ _)
    have hcb : ¬ c = cBackslash := fun h => hb (h ▸ List.mem_cons_self _ _)
    have hq1 : cQuery ∉ p := fun h => hq (List.mem_cons_of_mem _ h)
    have ho1 : cOpen ∉ p := fun h => ho (List.mem_cons_of_mem _ h)
    have hb1 : cBackslash ∉ p := fun h => hb (List.mem_cons_of_mem _ h)
    have ihn := ih f none hf1 hq1 ho1 hb1
    simp only [matchChunkAux, hcq, hco, hcb, if_false]
    cases s with
    | none => simpa using ihn
    | some x =>
      cases x with
      | nil => simpa using ihn
      | cons y t =>
        by_cases hcy : c = y
        · subst hcy
          have := ih f (some t) hf1 hq1 ho1 hb1
          simpa using this
        · have hyc : ¬ (c == y) = true := by simpa using hcy
          simp [hcy, ihn, List.isPrefixOf, hyc]

theorem matchChunk_literal (L s : List Byte)
    (hq : cQuery ∉ L) (ho : cOpen ∉ L) (hb : cBackslash ∉ L) :
    matchChunk L s
      = if L.isPrefixOf s then ChunkRes.ok (s.drop L.length) else ChunkRes.no := by
  unfold matchChunk
  rw [matchChunkAux_literal L _ (some s) (Nat.lt_succ_self _) hq ho hb]

theorem scanSplit_literal : ∀ (q tl : List Byte), cStar ∉ q → cOpen ∉ q → cBackslash ∉ q →
    scanSplit false (q ++ cStar :: tl) = (q, cStar :: tl) := by
  intro q
  induction q with
  | nil =>
    intro tl _ _ _
    rw [List.nil_append, scanSplit.eq_def]
    simp [cStar, cBackslash, cOpen, cClose]
  | cons c p ih =>
    intro tl hs ho hb
    have hcs : ¬ c = cStar := fun h => hs (h ▸ List.mem_cons_self _ _)
    have hco : ¬ c = cOpen := fun h => ho (h ▸ List.mem_cons_self _ _)
    have hcb : ¬ c = cBackslash := fun h => hb (h ▸ List.mem_cons_self _ _)
    have ih1 := ih tl (fun h => hs (List.mem_cons_of_mem _ h))
      (fun h => ho (List.mem_cons_of_mem _ h)) (fun h => hb (List.mem_cons_of_mem _ h))
    rw [List.cons_append, scanSplit.eq_def]
    simp only [hcb, hco, hcs, if_false, false_and, ih1]
    by_cases hcc : c = cClose <;> simp [hcc]

theorem scanChunk_literal (c : Byte) (p tl : List Byte)
    (hs : cStar ∉ c :: p) (ho : cOpen ∉ c :: p) (hb : cBackslash ∉ c :: p) :
    scanChunk (c :: p ++ cStar :: tl) = (false, c :: p, cStar :: tl) := by
  have hcs : ¬ c = cStar := fun h => hs (h ▸ List.mem_cons_self _ _)
  have hd : dropStars (c :: p ++ cStar :: tl) = (false, c :: p ++ cStar :: tl) := by
    rw [List.cons_append, dropStars]
    simp [hcs]
  unfold scanChunk
  rw [hd]
  simp only
  rw [scanSplit_literal (c :: p) tl hs ho hb]

theorem starSkip_literal (L : List Byte) (last : Bool)
    (hq : cQuery ∉ L) (ho : cOpen ∉ L) (hb : cBackslash ∉ L) :
    ∀ name, starSkip L last name ≠ none := by
  intro name
  induction name with
  | nil => simp [starSkip]
  | cons x t ih =>
    rw [starSkip]
    by_cases hx : x = cSep
    · rw [if_pos hx]; simp
    · rw [if_neg hx, matchChunk_literal L t hq ho hb]
      by_cases hp : L.isPrefixOf t = true
      · rw [if_pos hp]
        simp only
        by_cases hl : last = true ∧ List.drop L.length t ≠ []
        · rw [if_pos hl]; exact ih
        · rw [if_neg hl]; simp
      · rw [if_neg hp]
        exact ih

theorem matchAux_literal_then_star (f : Nat) (c : Byte) (p tl name : List Byte)
    (hs : cStar ∉ c :: p) (hq : cQuery ∉ c :: p) (ho : cOpen ∉ c :: p)
    (hb : cBackslash ∉ c :: p) :
    matchAux (f + 1) (c :: p ++ cStar :: tl) name =
      if (c :: p).isPrefixOf name then matchAux f (cStar :: tl) (name.drop (p.length + 1))
      else some false := by
  rw [matchAux]
  have hne : ¬ (c :: p ++ cStar :: tl = []) := by simp
  rw [if_neg hne]
  simp only [scanChunk_literal c p tl hs ho hb, matchChunk_literal (c :: p) name hq ho hb,
    Bool.false_eq_true, false_and, if_false]
  by_cases hp : (c :: p).isPrefixOf name = true
  · rw [if_pos hp, if_pos hp]
    simp
  · rw [if_neg hp, if_neg hp]

/-- What `Match` does with the last chunk `.log.gz` after a star. -/
theorem matchAux_backup_tail (f : Nat) (t : List Byte) :
    matchAux (f + 2) (bytes "*.log.gz") t ≠ none := by
  have hsc : scanChunk (bytes "*.log.gz") = (true, bytes ".log.gz", []) := by decide
  have hne : ¬ (bytes "*.log.gz" = []) := by decide
  have hq : cQuery ∉ bytes ".log.gz" := by decide
  have ho : cOpen ∉ bytes ".log.gz" := by decide
  have hb : cBackslash ∉ bytes ".log.gz" := by decide
  have hext : ¬ (True ∧ bytes ".log.gz" = []) := by decide
  have hend : ∀ x : List Byte, matchAux (f + 1) [] x ≠ none := by
    intro x; simp [matchAux]
  have hstar : ∀ r : Option (Option (List Byte)), r ≠ none →
      (match r with
        | none => none
        | some (some t1) => matchAux (f + 1) [] t1
        | some none => some false) ≠ none := by
    intro r hr
    cases r with
    | none => exact absurd rfl hr
    | some r1 =>
      cases r1 with
      | none => simp
      | some t1 => exact hend t1
  have hss := hstar _ (starSkip_literal (bytes ".log.gz")
    (decide (([] : List Byte) = [])) hq ho hb t)
  rw [matchAux, if_neg hne]
  simp only [hsc]
  rw [if_neg (by simpa using hext), matchChunk_literal _ t hq ho hb]
  by_cases hp : (bytes ".log.gz").isPrefixOf t = true
  · rw [if_pos hp]
    simp only
    by_cases ht : List.drop (bytes ".log.gz").length t = [] ∨ ([] : List Byte) ≠ []
    · rw [if_pos ht]; exact hend _
    · rw [if_neg ht]
      simp only [if_true]
      exact hss
  · rw [if_neg hp]
    simp only [if_true]
    exact hss

/-- `Match` on a literal part followed by `*.log.gz`. -/
theorem Match_literal_then_backup_tail (c : Byte) (p nm : List Byte)
    (hs : cStar ∉ c :: p) (hq : cQuery ∉ c :: p) (ho : cOpen ∉ c :: p)
    (hb : cBackslash ∉ c :: p) :
    Match (c :: p ++ cStar :: bytes ".log.gz") nm =
      if (c :: p).isPrefixOf nm then
        matchAux ((p.length + 7) + 2) (bytes "*.log.gz") (nm.drop (p.length + 1))
      else some false := by
  have hlen : (c :: p ++ cStar :: bytes ".log.gz").length + 1 = (p.length + 7) + 2 + 1 := by
    have : (bytes ".log.gz").length = 7 := by decide
    simp [this]
  have hstar : cStar :: bytes ".log.gz" = bytes "*.log.gz" := by decide
  unfold Match
  rw [hlen, matchAux_literal_then_star _ c p _ nm hs hq ho hb, hstar]

theorem Match_literal_then_backup_tail_ne_none (c : Byte) (p nm : List Byte)
    (hs : cStar ∉ c :: p) (hq : cQuery ∉ c :: p) (ho : cOpen ∉ c :: p)
    (hb : cBackslash ∉ c :: p) :
    Match (c :: p ++ cStar :: bytes ".log.gz") nm ≠ none := by
  rw [Match_literal_then_backup_tail c p nm hs hq ho hb]
  split
  · exact matchAux_backup_tail _ _
  · simp

theorem Plain_trimSuffix {path : List Byte} (suffix : List Byte) (hp : Plain path) :
    Plain (trimSuffix path suffix) := by
  unfold trimSuffix
  split
  · obtain ⟨h1, h2, h3, h4⟩ := hp
    exact ⟨fun h => h1 (List.mem_of_mem_take h), fun h => h2 (List.mem_of_mem_take h),
      fun h => h3 (List.mem_of_mem_take h), fun h => h4 (List.mem_of_mem_take h)⟩
  · exact hp

/-- The backup pattern of a plain path is never matched by the path. -/
theorem not_isPrefixOf_self (path : List Byte) :
    ¬ (trimSuffix path (bytes ".log") ++ [cDash]).isPrefixOf path = true := by
  intro h
  rw [List.isPrefixOf_iff_prefix] at h
  unfold trimSuffix at h
  by_cases hsuf : (bytes ".log").isSuffixOf path = true
  · rw [if_pos hsuf] at h
    rw [List.isSuffixOf_iff_suffix] at hsuf
    have e := List.suffix_iff_eq_append.mp hsuf
    rw [← e] at h
    have h2 : [cDash] <+: bytes ".log" := by
      rw [List.take_left'] at h
      · exact (List.prefix_append_right_inj _).mp h
      · rw [List.length_append]; simp
    revert h2
    decide
  · rw [if_neg hsuf] at h
    have := h.length_le
    simp at this

/-- The backup pattern of a plain path, and the same behind a plain
directory part: a literal part, then `*.log.gz`. -/
theorem backupPattern_shape (dir path : List Byte) (hd : Plain dir) (hp : Plain path) :
    ∃ c p, dir ++ trimSuffix path (bytes ".log") ++ [cDash] = c :: p
      ∧ dir ++ backupPattern path = c :: p ++ cStar :: bytes ".log.gz"
      ∧ cStar ∉ c :: p ∧ cQuery ∉ c :: p ∧ cOpen ∉ c :: p ∧ cBackslash ∉ c :: p := by
  obtain ⟨h1, h2, h3, h4⟩ := Plain_trimSuffix (bytes ".log") hp
  obtain ⟨d1, d2, d3, d4⟩ := hd
  have hshape : ∃ c p, dir ++ trimSuffix path (bytes ".log") ++ [cDash] = c :: p := by
    cases hq : dir ++ trimSuffix path (bytes ".log") with
    | nil => exact ⟨cDash, [], rfl⟩
    | cons c r => exact ⟨c, r ++ [cDash], rfl⟩
  obtain ⟨c, p, hcp⟩ := hshape
  have hmem : ∀ x, x ≠ cDash → x ∉ dir → x ∉ trimSuffix path (bytes ".log") →
      x ∉ c :: p := by
    intro x hx hnd hn
    rw [← hcp]
    simp only [List.mem_append, List.mem_singleton, not_or]
    exact ⟨⟨hnd, hn⟩, hx⟩
  refine ⟨c, p, hcp, ?_, hmem cStar (by decide) d1 h1, hmem cQuery (by decide) d2 h2,
    hmem cOpen (by decide) d3 h3, hmem cBackslash (by decide) d4 h4⟩
  have e : bytes "-*.log.gz" = [cDash] ++ cStar :: bytes ".log.gz" := by decide
  rw [backupPattern, e, ← List.append_assoc, ← List.append_assoc, hcp]

theorem Plain_nil : Plain [] := by
  refine ⟨?_, ?_, ?_, ?_⟩ <;> simp

theorem Plain_logDir : Plain logDir := by
  refine ⟨?_, ?_, ?_, ?_⟩ <;> decide

theorem Match_backupPattern (path name : List Byte) (hp : Plain path) :
    Match (backupPattern path) name ≠ none ∧ Match (backupPattern path) path = some false := by
  obtain ⟨c, p, hcp, hpat, hs, hq, ho, hb⟩ := backupPattern_shape [] path Plain_nil hp
  rw [List.nil_append] at hcp hpat
  refine ⟨?_, ?_⟩
  · rw [hpat]
    exact Match_literal_then_backup_tail_ne_none c p name hs hq ho hb
  · rw [hpat, Match_literal_then_backup_tail c p path hs hq ho hb, if_neg]
    rw [← hcp]
    exact not_isPrefixOf_self path

/-- The check that `Glob` makes of the whole path pattern passes for a plain
file name. -/
theorem Match_logDir_backupPattern (path : List Byte) (hp : Plain path) :
    Match (logDir ++ backupPattern path) [] ≠ none := by
  obtain ⟨c, p, _, hpat, hs, hq, ho, hb⟩ := backupPattern_shape logDir path Plain_logDir hp
  rw [hpat]
  exact Match_literal_then_backup_tail_ne_none c p [] hs hq ho hb

theorem globNames_isSome (pattern : List Byte) :
    ∀ ns : List (List Byte), (∀ n ∈ ns, Match pattern n ≠ none) →
      (globNames pattern ns).isSome = true := by
  intro ns
  induction ns with
  | nil => intro _; rfl
  | cons n rest ih =>
    intro h
    have h1 := h n (List.mem_cons_self _ _)
    have h2 := ih (fun x hx => h x (List.mem_cons_of_mem _ hx))
    rw [globNames]
    cases hm : Match pattern n with
    | none => exact absurd hm h1
    | some b =>
      obtain ⟨ms, hms⟩ := Option.isSome_iff_exists.mp h2
      simp [hms]

theorem Glob_plain (d : Disk) (path : List Byte) (hp : Plain path) :
    (Glob DiskFaults.ok (backupPattern path) d).isSome = true := by
  unfold Glob
  rw [if_neg (Match_logDir_backupPattern path hp)]
  simp only [DiskFaults.ok, Bool.false_eq_true, if_false]
  exact globNames_isSome _ _ (fun n _ => (Match_backupPattern path n hp).1)

theorem completeLines_of_no_newline {p : List Byte} (hp : NL ∉ p) : completeLines p = [] :=
  linesFrom_of_none [] (splitNL_none_iff.mpr hp)

theorem completeLines_of_one_line {t : List Byte} (ht : NL ∉ t) :
    completeLines (t ++ [NL]) = [t ++ [NL]] := by
  have h1 : splitNL (t ++ [NL]) = some (t ++ [NL], []) := by
    rw [splitNL_append_none _ (splitNL_none_iff.mpr ht)]
    simp [splitNL]
  simpa [completeLines, linesFrom] using linesFrom_of_split [] h1

/-! ## The claims -/

/-- C1 (the code departs from the claim). The claim: after the session starts,
the payloads of the emitted `log` events are exactly the newline-terminated
lines appended, a trailing fragment contributing nothing until it is
completed. On the code: "hel" is appended and a Write event handled, then
"lo\n" is appended and a Write event handled; the only event emitted is
`log "lo\n"`, although the one line appended is "hello\n". -/
theorem C1_line_split_over_two_writes :
    emitted (createFileTailHandler (FS.single []) StartFaults.ok
        (observed [bytes "hel", bytes "lo\n"])) = some [SSE.log (bytes "lo\n")]
    ∧ completeLines (bytes "hel" ++ bytes "lo\n") = [bytes "hello\n"] := by
  decide

/-- C2 (the code departs from the claim). The claim: a trailing fragment `p`
without newline is left unread, the read position staying at its first byte,
and once `s` and a newline are appended one `log` event `p ++ s ++ "\n"` is
emitted. On the code, with `p = "par"` and `s = "tial"`: after the first
event nothing is emitted but the handle stands at offset 3, past the
fragment, with nothing buffered; the second event emits `log "tial\n"`. -/
theorem C2_fragment_consumed_and_dropped :
    emitted (createFileTailHandler (FS.single []) StartFaults.ok
        (observed [bytes "par"])) = some []
    ∧ blockedAt (createFileTailHandler (FS.single []) StartFaults.ok
        (observed [bytes "par"])) = some { ino := 0, off := 3, buf := [] }
    ∧ emitted (createFileTailHandler (FS.single []) StartFaults.ok
        (observed [bytes "par", bytes "tial\n"])) = some [SSE.log (bytes "tial\n")] := by
  decide

/-- C3 (the code departs from the claim). The claim: after a reset seen
through a Write/Create event at which the size is below the offset, every
complete line appended after the reset is emitted exactly once and in order.
On the code: "hello\n" is appended and seen (offset 6), the file is reset,
"wo" is written and the Write event handled (size 2 is below 6: the handle
goes to offset 0 and reads on to offset 2, emitting nothing), then "rld\n" is
written and seen.  The events are `log "hello\n"` and `log "rld\n"`, although
the one line written since the reset is "world\n". -/
theorem C3_line_split_after_reset :
    emitted (createFileTailHandler (FS.single []) StartFaults.ok
        [app "hello\n", wr, Action.env FS.reset, app "wo", wr, app "rld\n", wr])
      = some [SSE.log (bytes "hello\n"), SSE.log (bytes "rld\n")]
    ∧ blockedAt (createFileTailHandler (FS.single []) StartFaults.ok
        [app "hello\n", wr, Action.env FS.reset, app "wo", wr])
      = some { ino := 0, off := 2, buf := [] }
    ∧ activeContent (createFileTailHandler (FS.single []) StartFaults.ok
        [app "hello\n", wr, Action.env FS.reset, app "wo", wr, app "rld\n", wr])
      = some (bytes "world\n")
    ∧ completeLines (bytes "world\n") = [bytes "world\n"] := by
  decide

/-- C4 as stated fails. On an empty active file a session attaches; the file
is rotated and the logger writes "x\n" to the new file before the handler
handles the Rename event; "y\n" is then written and seen.  The new file
holds the two lines "x\n" and "y\n", both written after the rotation, and
the session emits `log "y\n"` only. -/
theorem C4_line_written_before_reopen_not_emitted :
    emitted (createFileTailHandler (FS.single []) StartFaults.ok rotationRace)
        = some [SSE.log (bytes "y\n")]
    ∧ activeContent (createFileTailHandler (FS.single []) StartFaults.ok rotationRace)
        = some (bytes "x\ny\n")
    ∧ completeLines (bytes "x\ny\n") = [bytes "x\n", bytes "y\n"] := by
  decide

/-- C4, amended. The active file is rotated and `n0` is written to the new
file before the handler handles the resulting Remove/Rename event (an event
without the Write and Create bits, nothing failing).  Handling that event
emits nothing and leaves the session blocked with a new handle on the new
file, at its end, offset `n0.length`, with an empty reader.  Chunks written
to the new file afterwards, each ending on a line boundary and each seen
through a Write event, are emitted as exactly their complete lines, in
order, each once; nothing of the old file or of the old handle, and nothing
of `n0`, is emitted. -/
theorem C4_reopen_at_end_of_new_file (fs : FS) (h : Handle) (n0 : List Byte)
    (chunks : List (List Byte)) (op : Op)
    (hw : (op.write || op.create) = false) (hr : (op.remove || op.rename) = true)
    (hal : ∀ a ∈ chunks, LineAligned a) :
    onEvent (FS.append n0 (FS.rotate fs)) Faults.ok op h
        = some ([], some { ino := fs.fresh, off := n0.length, buf := [] })
    ∧ emitted (tailRun (FS.append n0 (FS.rotate fs)) h
          (Action.event op Faults.ok :: observed chunks))
        = some ((completeLines chunks.flatten).map SSE.log)
    ∧ blockedAt (tailRun (FS.append n0 (FS.rotate fs)) h
          (Action.event op Faults.ok :: observed chunks))
        = some { ino := fs.fresh, off := n0.length + chunks.flatten.length, buf := [] } := by
  have hact : (FS.rotate fs).active = some fs.fresh := rfl
  obtain ⟨h1, h2, _, _⟩ := FS.append_active n0 (FS.rotate fs) fs.fresh hact
  have hd : (FS.append n0 (FS.rotate fs)).data fs.fresh = n0 := by
    rw [h2]; simp [FS.rotate]
  have hev : onEvent (FS.append n0 (FS.rotate fs)) Faults.ok op h
      = some ([], some { ino := fs.fresh, off := n0.length, buf := [] }) := by
    rw [onEvent_remove _ _ _ _ hw hr]
    simp [onRemove, openLogFile, h1, hd, Faults.ok]
  have hobs := tailRun_observed chunks (FS.append n0 (FS.rotate fs))
    { ino := fs.fresh, off := n0.length, buf := [] } h1 rfl (by rw [hd])
  have hdata := appendAll_data chunks (FS.append n0 (FS.rotate fs)) fs.fresh h1
  refine ⟨hev, ?_, ?_⟩
  · rw [tailRun, hev]
    simp only [hobs, emitted, Option.map_some', List.nil_append,
      linesPerChunk_aligned chunks hal]
  · rw [tailRun, hev]
    simp only [hobs, blockedAt, hdata, hd, List.length_append]

/-- C4 amended, at a concrete input: a session at offset 4 of a file holding
"old\n"; rotation, "x\n" written before the Rename event is handled, then
"y\n" and "z\n" written and seen. -/
theorem C4_reopen_at_end_of_new_file_witness :
    emitted (tailRun (FS.append (bytes "x\n") (FS.rotate (FS.single (bytes "old\n"))))
        { ino := 0, off := 4, buf := [] }
        (Action.event Op.onlyRename Faults.ok :: observed [bytes "y\n", bytes "z\n"]))
      = some ((completeLines [bytes "y\n", bytes "z\n"].flatten).map SSE.log) :=
  (C4_reopen_at_end_of_new_file (FS.single (bytes "old\n")) { ino := 0, off := 4, buf := [] }
    (bytes "x\n") [bytes "y\n", bytes "z\n"] Op.onlyRename rfl rfl
    (by
      intro a ha
      simp only [List.mem_cons, List.mem_singleton, List.not_mem_nil, or_false] at ha
      rcases ha with rfl | rfl
      · exact Or.inr ⟨bytes "y", by decide⟩
      · exact Or.inr ⟨bytes "z", by decide⟩)).2.1

/-- C5. `openLogFile` on an existing active file returns, whenever it
succeeds, the handle at the end of the file (offset equal to the size) with
an empty reader.  A session started there emits, over any chunks appended
and seen, the complete lines of these chunks only; and over any history of
appends, resets, rotations, events and failures, it emits the same events
whatever bytes (in the same number) the file held when it attached: no byte
present at attach reaches a payload. -/
theorem C5_attach_at_end_of_file (fs : FS) (sf : StartFaults) (i : Nat) (c2 : List Byte)
    (steps : List Step) (chunks : List (List Byte))
    (hact : fs.active = some i) (hfresh : i < fs.fresh)
    (hlen : c2.length = (fs.data i).length) :
    openLogFile fs Faults.ok = some { ino := i, off := (fs.data i).length, buf := [] }
    ∧ (∀ ft h, openLogFile fs ft = some h →
        h = { ino := i, off := (fs.data i).length, buf := [] })
    ∧ emitted (createFileTailHandler fs StartFaults.ok (observed chunks))
        = some ((linesPerChunk chunks).map SSE.log)
    ∧ emitted (createFileTailHandler (fs.withContent i c2) sf (steps.map Step.toAction))
        = emitted (createFileTailHandler fs sf (steps.map Step.toAction)) := by
  have hopen : ∀ ft h, openLogFile fs ft = some h →
      h = { ino := i, off := (fs.data i).length, buf := [] } := by
    intro ft h ho
    obtain ⟨hb, ha, hoff⟩ := openLogFile_some ho
    rw [hact] at ha
    simp only [Option.some.injEq] at ha
    cases h
    simp only at hb ha hoff
    subst hb ha
    simp [hoff]
  have hok : openLogFile fs Faults.ok
      = some { ino := i, off := (fs.data i).length, buf := [] } := by
    simp [openLogFile, hact, Faults.ok]
  refine ⟨hok, hopen, ?_, ?_⟩
  · have hobs := tailRun_observed chunks fs
      { ino := i, off := (fs.data i).length, buf := [] } hact rfl rfl
    simp only [createFileTailHandler, hok, StartFaults.ok, Bool.false_eq_true, if_false,
      Faults.ok] at hobs ⊢
    simp only [Faults.ok] at hok
    simp only [hok, hobs, emitted, Option.map_some']
  · have h2 : ∀ ft, openLogFile (fs.withContent i c2) ft = openLogFile fs ft := by
      intro ft
      simp [openLogFile, FS.withContent, hact, hlen]
    unfold createFileTailHandler
    rw [h2]
    cases ho : openLogFile fs sf.file with
    | none => rfl
    | some h =>
      simp only
      by_cases hwt : sf.watcher = true
      · simp only [hwt, if_true]
      · simp only [hwt]
        have e := hopen _ _ ho
        exact tailRun_rel i (fs.data i).length steps fs (fs.withContent i c2) h
          (Rel_withContent fs i c2 h hfresh hlen (by rw [e]))

/-- C5, at a concrete input: the file holds "old\n" at attach; replacing it
by "new\n" changes nothing in what is emitted when "x\n" is appended and
seen, the file reset, and "y\n" appended and seen. -/
theorem C5_attach_at_end_of_file_witness :
    emitted (createFileTailHandler ((FS.single (bytes "old\n")).withContent 0 (bytes "new\n"))
        StartFaults.ok
        ([Step.append (bytes "x\n"), Step.event Op.onlyWrite Faults.ok, Step.reset,
          Step.append (bytes "y\n"), Step.event Op.onlyWrite Faults.ok].map Step.toAction))
      = emitted (createFileTailHandler (FS.single (bytes "old\n")) StartFaults.ok
        ([Step.append (bytes "x\n"), Step.event Op.onlyWrite Faults.ok, Step.reset,
          Step.append (bytes "y\n"), Step.event Op.onlyWrite Faults.ok].map Step.toAction)) :=
  (C5_attach_at_end_of_file (FS.single (bytes "old\n")) StartFaults.ok 0 (bytes "new\n")
    [Step.append (bytes "x\n"), Step.event Op.onlyWrite Faults.ok, Step.reset,
      Step.append (bytes "y\n"), Step.event Op.onlyWrite Faults.ok] []
    rfl (by decide) (by decide)).2.2.2

/-- C6 as stated fails. The file named `[.log.gz-z[].log.gz` matches the
glob pattern `[.log.gz-z[].log.gz-*.log.gz` built from its own name (the
bracket expression matches `[`, the star matches `z[]`), a pattern which
`Glob` accepts.  With this file alone in the directory and no call failing,
`ResetLogFile` returns success and the directory is empty: the active file,
which existed, is no longer at its path. -/
theorem C6_self_matching_path_is_deleted :
    Match (backupPattern selfMatching) selfMatching = some true
    ∧ (Glob DiskFaults.ok (backupPattern selfMatching) [(selfMatching, bytes "x")]).isSome
        = true
    ∧ ResetLogFile DiskFaults.ok selfMatching [(selfMatching, bytes "x")] = ([], none)
    ∧ (ResetLogFile DiskFaults.ok selfMatching [(selfMatching, bytes "x")]).1.lookup
        selfMatching = none := by
  decide

/-- C6, amended. In the log directory, its names distinct, for a file name
whose backup pattern `Glob` accepts and which does not itself match that
pattern, when no call fails `ResetLogFile` returns success and afterwards,
for every name `n`: the active file is at its path with zero length if it
existed and absent if it did not; any other file whose name matches the
backup pattern is gone; every other file is as it was. -/
theorem C6_reset_truncates_and_removes_backups (d : Disk) (path n : List Byte)
    (_hname : IsFileName path) (hnd : d.names.Nodup)
    (hglob : (Glob DiskFaults.ok (backupPattern path) d).isSome = true)
    (hself : Match (backupPattern path) path ≠ some true) :
    (ResetLogFile DiskFaults.ok path d).2 = none
    ∧ (ResetLogFile DiskFaults.ok path d).1.lookup n
        = if n = path then (d.lookup path).map (fun _ => [])
          else if Match (backupPattern path) n = some true then none
          else d.lookup n := by
  obtain ⟨ms, hms⟩ := Option.isSome_iff_exists.mp hglob
  rw [ResetLogFile_ok d path ms hnd hms]
  refine ⟨rfl, ?_⟩
  simp only
  exact lookup_reset_result d path n ms (Glob_ok_filter hms) hself

/-- C6 amended, at the server's own log file: in `sampleDisk` the first
backup is gone after the reset. -/
theorem C6_reset_truncates_and_removes_backups_witness :
    (ResetLogFile DiskFaults.ok ControlServerLogFile sampleDisk).2 = none
    ∧ (ResetLogFile DiskFaults.ok ControlServerLogFile sampleDisk).1.lookup
          (bytes "controlserver-2024-01-01.log.gz")
        = if bytes "controlserver-2024-01-01.log.gz" = ControlServerLogFile
          then (Disk.lookup sampleDisk ControlServerLogFile).map (fun _ => [])
          else if Match (backupPattern ControlServerLogFile)
              (bytes "controlserver-2024-01-01.log.gz") = some true then none
          else Disk.lookup sampleDisk (bytes "controlserver-2024-01-01.log.gz") :=
  C6_reset_truncates_and_removes_backups sampleDisk ControlServerLogFile
    (bytes "controlserver-2024-01-01.log.gz")
    ⟨by decide, by decide, by decide, by decide⟩ (by decide) (by decide) (by decide)

/-- C7 as stated fails. In `sampleDisk` the removal of the first backup fails
and that of the second would succeed; `ResetLogFile` returns the error of the
first removal, and the second backup is still there with its content: its
removal was not attempted. -/
theorem C7_second_backup_left_after_first_failure :
    (ResetLogFile firstRemoveFails ControlServerLogFile sampleDisk).2
        = some (ResetErr.remove (bytes "controlserver-2024-01-01.log.gz"))
    ∧ firstRemoveFails.remove (bytes "controlserver-2024-01-02.log.gz") = false
    ∧ (ResetLogFile firstRemoveFails ControlServerLogFile sampleDisk).1.lookup
          (bytes "controlserver-2024-01-02.log.gz") = some (bytes "b") := by
  decide

/-- C7, amended. `Stat` and `Truncate` do not fail and `Glob` returns the
matches `ms1 ++ m :: ms2`, where no removal fails in `ms1` and the removal of
`m` fails.  Then `ResetLogFile` returns the error of the removal of `m`, the
first failure; the matches of `ms1` are gone; and `m`, every match of `ms2`
and every other file are as the truncation step left them: no removal is
attempted after the first failure. -/
theorem C7_reset_stops_at_first_failed_removal (io : DiskFaults) (d : Disk)
    (path m n : List Byte) (ms1 ms2 : List (List Byte))
    (hstat : io.stat = false) (htr : io.truncate = false) (hnd : d.names.Nodup)
    (hg : Glob io (backupPattern path) d = some (ms1 ++ m :: ms2))
    (h1 : ∀ x ∈ ms1, io.remove x = false) (hm : io.remove m = true) :
    (ResetLogFile io path d).2 = some (ResetErr.remove m)
    ∧ (ResetLogFile io path d).1.lookup n
        = if n ∈ ms1 then none
          else if n = path then (d.lookup path).map (fun _ => [])
          else d.lookup n := by
  have hn1 := names_after_truncate path d
  have hg1 : Glob io (backupPattern path)
      (if (d.lookup path).isSome then d.truncate path else d) = some (ms1 ++ m :: ms2) := by
    rw [Glob_names hn1, hg]
  obtain ⟨hmsnd, hmsex⟩ := Glob_matches (by rw [hn1]; exact hnd) hg1
  obtain ⟨happ, _⟩ := removeMatches_append io ms1 (m :: ms2)
    (if (d.lookup path).isSome then d.truncate path else d) hmsnd hmsex h1
  have hres : ResetLogFile io path d
      = (removeAll ms1 (if (d.lookup path).isSome then d.truncate path else d),
          some (ResetErr.remove m)) := by
    unfold ResetLogFile
    simp only [hstat, htr, Bool.false_eq_true, if_false, and_false]
    rw [hg1]
    simp only [happ, removeMatches, hm, true_or, if_true]
  rw [hres]
  refine ⟨rfl, ?_⟩
  simp only
  rw [lookup_removeAll, lookup_after_truncate]

/-- C7 amended, at `sampleDisk` with the removal of the second backup
failing: the first backup is gone, and the error is that of the second. -/
theorem C7_reset_stops_at_first_failed_removal_witness :
    (ResetLogFile secondRemoveFails ControlServerLogFile sampleDisk).2
        = some (ResetErr.remove (bytes "controlserver-2024-01-02.log.gz"))
    ∧ (ResetLogFile secondRemoveFails ControlServerLogFile sampleDisk).1.lookup
          (bytes "controlserver-2024-01-01.log.gz")
        = if bytes "controlserver-2024-01-01.log.gz"
              ∈ [bytes "controlserver-2024-01-01.log.gz"] then none
          else if bytes "controlserver-2024-01-01.log.gz" = ControlServerLogFile
          then (Disk.lookup sampleDisk ControlServerLogFile).map (fun _ => [])
          else Disk.lookup sampleDisk (bytes "controlserver-2024-01-01.log.gz") :=
  C7_reset_stops_at_first_failed_removal secondRemoveFails sampleDisk ControlServerLogFile
    (bytes "controlserver-2024-01-02.log.gz") (bytes "controlserver-2024-01-01.log.gz")
    [bytes "controlserver-2024-01-01.log.gz"] [] rfl rfl (by decide) (by decide)
    (by decide) (by decide)

/-- C8. Whatever the file system, the failures injected and the sequence of
environment changes, watcher events, watcher errors, closed channels and
cancellations, the handler returns a trace (it never runs out of fuel) that
is zero or more `log` events, each carrying one line that ends with its
newline and holds no other, followed by at most one `error` event, and once
an `error` event is emitted the handler has returned.  A cancellation makes
the handler return without emitting anything, whatever follows it. -/
theorem C8_logs_then_at_most_one_error (fs : FS) (sf : StartFaults)
    (acts post : List Action) :
    (∃ (logs : List (List Byte)) (errs : List ErrKind) (st : Option (FS × Handle)),
        createFileTailHandler fs sf acts
          = some (logs.map SSE.log ++ errs.map SSE.error, st)
        ∧ errs.length ≤ 1 ∧ (∀ s ∈ logs, IsLine s) ∧ (errs ≠ [] → st = none))
    ∧ createFileTailHandler fs sf (acts ++ Action.done :: post)
        = (match createFileTailHandler fs sf acts with
          | some (out, some _) => some (out, none)
          | r => r) := by
  unfold createFileTailHandler
  cases ho : openLogFile fs sf.file with
  | none =>
    exact ⟨⟨[], [ErrKind.opening], none, rfl, by simp, by simp, fun _ => rfl⟩, rfl⟩
  | some h =>
    simp only
    by_cases hwt : sf.watcher = true
    · simp only [hwt, if_true]
      exact ⟨⟨[], [ErrKind.creatingWatcher], none, rfl, by simp, by simp, fun _ => rfl⟩,
        trivial⟩
    · simp only [hwt]
      refine ⟨?_, tailRun_done fs h acts post⟩
      obtain ⟨out, st, h0, hsh⟩ := tailRun_shape acts fs h (openLogFile_some ho).1
      rcases hsh with ⟨fs1, h1, rfl, hl, _⟩ | ⟨rfl, ls, tl, rfl, hl, htl⟩
      · obtain ⟨logs, rfl, hlines⟩ := Logs_payloads hl
        exact ⟨logs, [], _, by simpa using h0, by simp, hlines, fun hne => absurd rfl hne⟩
      · obtain ⟨logs, rfl, hlines⟩ := Logs_payloads hl
        rcases htl with rfl | ⟨k, rfl⟩
        · exact ⟨logs, [], none, by simpa using h0, by simp, hlines, fun _ => rfl⟩
        · exact ⟨logs, [k], none, by simpa using h0, by simp, hlines, fun _ => rfl⟩

/-- C9. The truncation check resets the offset exactly when the size found is
below the handle's offset.  In the history `resetRace` ("hello\n" appended
and seen, then the file reset and "world\n" written before the next event is
handled) the size found equals the offset 6: only `log "hello\n"` is emitted,
the handle stays at offset 6 on a file that holds "world\n", and whatever
chunks are appended and seen afterwards, the events that follow are the
lines of these chunks: the bytes "world\n" are never emitted. -/
theorem C9_rewrite_up_to_offset_goes_unseen (fs : FS) (h : Handle)
    (chunks : List (List Byte)) :
    (truncCheck fs Faults.ok h).off
        = (if (fs.data h.ino).length < h.off then 0 else h.off)
    ∧ emitted (createFileTailHandler (FS.single []) StartFaults.ok resetRace)
        = some [SSE.log (bytes "hello\n")]
    ∧ blockedAt (createFileTailHandler (FS.single []) StartFaults.ok resetRace)
        = some { ino := 0, off := 6, buf := [] }
    ∧ activeContent (createFileTailHandler (FS.single []) StartFaults.ok resetRace)
        = some (bytes "world\n")
    ∧ emitted (createFileTailHandler (FS.single []) StartFaults.ok
          (resetRace ++ observed chunks))
        = some (SSE.log (bytes "hello\n") :: (linesPerChunk chunks).map SSE.log) := by
  refine ⟨?_, by decide, by decide, by decide, ?_⟩
  · simp only [truncCheck, Faults.ok, Bool.false_eq_true, if_false]
    by_cases hlt : (fs.data h.ino).length < h.off <;> simp [hlt]
  · have hrun : tailRun (FS.single []) { ino := 0, off := 0, buf := [] } resetRace
        = some ([SSE.log (bytes "hello\n")],
            some (FS.append (bytes "world\n")
                    (FS.reset (FS.append (bytes "hello\n") (FS.single []))),
                  { ino := 0, off := 6, buf := [] })) := by
      rfl
    have hobs := tailRun_observed chunks
      (FS.append (bytes "world\n") (FS.reset (FS.append (bytes "hello\n") (FS.single []))))
      { ino := 0, off := 6, buf := [] } rfl rfl (by decide)
    have hcre : createFileTailHandler (FS.single []) StartFaults.ok
        (resetRace ++ observed chunks)
        = tailRun (FS.single []) { ino := 0, off := 0, buf := [] }
            (resetRace ++ observed chunks) := rfl
    rw [hcre, tailRun_append, hrun]
    simp only [hobs, emitted, Option.map_some', List.singleton_append]

/-- C10. Whenever the handler is blocked in the `select` (after opening and
after any sequence of environment changes and events, with any failures
injected), the buffered reader holds no unread byte, so that the position of
the reader is the offset of the descriptor, the one the truncation check
reads; and a run always returns a result. -/
theorem C10_reader_drained_at_select (fs : FS) (sf : StartFaults) (acts : List Action) :
    match createFileTailHandler fs sf acts with
    | some (_, some (_, h)) => h.buf = [] ∧ h.readerPos = h.off
    | some (_, none) => True
    | none => False := by
  unfold createFileTailHandler
  cases ho : openLogFile fs sf.file with
  | none => trivial
  | some h =>
    simp only
    by_cases hwt : sf.watcher = true
    · simp only [hwt, if_true]
    · simp only [hwt]
      obtain ⟨out, st, h0, hsh⟩ := tailRun_shape acts fs h (openLogFile_some ho).1
      rcases hsh with ⟨fs1, h1, rfl, _, hb⟩ | ⟨rfl, _⟩
      · simp only [h0, Bool.false_eq_true, if_false]
        exact ⟨hb, by simp [Handle.readerPos, hb]⟩
      · simp only [h0, Bool.false_eq_true, if_false]

/-! ## Further properties of the tail loop -/

/-- Appends seen one by one: a session that has consumed the whole active
file, over any chunks each appended and then seen through a Write event,
emits the complete lines of each chunk taken by itself, chunk after chunk. -/
theorem appends_emit_lines_of_each_chunk (fs : FS) (h : Handle)
    (chunks : List (List Byte)) (hact : fs.active = some h.ino) (hb : h.buf = [])
    (ho : h.off = (fs.data h.ino).length) :
    emitted (tailRun fs h (observed chunks)) = some ((linesPerChunk chunks).map SSE.log) := by
  rw [tailRun_observed chunks fs h hact hb ho]; rfl

/-- Appends seen one by one, at a concrete input. -/
theorem appends_emit_lines_of_each_chunk_witness :
    emitted (tailRun (FS.single []) { ino := 0, off := 0, buf := [] }
        (observed [bytes "a\nb", bytes "c\n"]))
      = some ((linesPerChunk [bytes "a\nb", bytes "c\n"]).map SSE.log) :=
  appends_emit_lines_of_each_chunk (FS.single []) { ino := 0, off := 0, buf := [] }
    [bytes "a\nb", bytes "c\n"] rfl rfl rfl

/-- Appends that end on line boundaries: when every chunk appended ends with
a newline (or is empty), the events emitted are exactly the newline-terminated
lines appended, in file order, each once. -/
theorem aligned_appends_emit_all_lines (fs : FS) (h : Handle)
    (chunks : List (List Byte)) (hact : fs.active = some h.ino) (hb : h.buf = [])
    (ho : h.off = (fs.data h.ino).length) (hal : ∀ a ∈ chunks, LineAligned a) :
    emitted (tailRun fs h (observed chunks))
      = some ((completeLines chunks.flatten).map SSE.log) := by
  rw [tailRun_observed chunks fs h hact hb ho, linesPerChunk_aligned chunks hal]; rfl

/-- Appends that end on line boundaries, at a concrete input. -/
theorem aligned_appends_emit_all_lines_witness :
    emitted (tailRun (FS.single []) { ino := 0, off := 0, buf := [] }
        (observed [bytes "a\n", bytes "b\nc\n"]))
      = some ((completeLines [bytes "a\n", bytes "b\nc\n"].flatten).map SSE.log) :=
  aligned_appends_emit_all_lines (FS.single []) { ino := 0, off := 0, buf := [] }
    [bytes "a\n", bytes "b\nc\n"] rfl rfl rfl
    (by
      intro a ha
      simp only [List.mem_cons, List.mem_singleton, List.not_mem_nil, or_false] at ha
      rcases ha with rfl | rfl
      · exact Or.inr ⟨bytes "a", by decide⟩
      · exact Or.inr ⟨bytes "b\nc", by decide⟩)

/-- A line split over two appends: when a fragment `p` without newline is
appended and seen, and then `t` followed by a newline, the one event emitted
carries `t` and the newline; the bytes of `p` are in no payload. -/
theorem split_line_loses_its_first_part (fs : FS) (h : Handle) (p t : List Byte)
    (hact : fs.active = some h.ino) (hb : h.buf = [])
    (ho : h.off = (fs.data h.ino).length) (hp : NL ∉ p) (ht : NL ∉ t) :
    emitted (tailRun fs h (observed [p, t ++ [NL]])) = some [SSE.log (t ++ [NL])] := by
  rw [tailRun_observed [p, t ++ [NL]] fs h hact hb ho]
  simp [emitted, linesPerChunk, completeLines_of_no_newline hp, completeLines_of_one_line ht]

/-- A line split over two appends, at a concrete input. -/
theorem split_line_loses_its_first_part_witness :
    emitted (tailRun (FS.single []) { ino := 0, off := 0, buf := [] }
        (observed [bytes "par", bytes "tial" ++ [NL]]))
      = some [SSE.log (bytes "tial" ++ [NL])] :=
  split_line_loses_its_first_part (FS.single []) { ino := 0, off := 0, buf := [] }
    (bytes "par") (bytes "tial") rfl rfl rfl (by decide) (by decide)

/-- Truncation seen as a restart. A session holds the active file open at offset `h.off`; the file is
reset and `a` is written to it, with `a` shorter than `h.off`, before a
Write/Create event is handled.  Then the truncation check puts the offset at
0 with a new, empty reader, which is the handle a session opened on the
reset file has; the event emits exactly the complete lines of `a`, in order,
and nothing of the earlier content; the run from there on is the run of the
session that started on the reset file; and when `a` and the chunks appended
and seen afterwards end on line boundaries, the events emitted are exactly
the lines written since the reset, in order, each once.  The scenario of
the spec holds: on an empty file, "hello\n" appended and seen, a reset seen,
"world\n" appended and seen give `log "hello\n"` and `log "world\n"` and
nothing else. -/
theorem truncation_restarts_as_new_session (fs : FS) (h : Handle) (a : List Byte) (op : Op)
    (rest : List Action) (chunks : List (List Byte)) (hact : fs.active = some h.ino)
    (hw : (op.write || op.create) = true) (hr : (op.remove || op.rename) = false)
    (hlt : a.length < h.off) :
    truncCheck (FS.append a (FS.reset fs)) Faults.ok h = { ino := h.ino, off := 0, buf := [] }
    ∧ openLogFile (FS.reset fs) Faults.ok = some { ino := h.ino, off := 0, buf := [] }
    ∧ onEvent (FS.append a (FS.reset fs)) Faults.ok op h
        = some ((completeLines a).map SSE.log,
            some { ino := h.ino, off := a.length, buf := [] })
    ∧ tailRun (FS.append a (FS.reset fs)) h (Action.event op Faults.ok :: rest)
        = tailRun (FS.append a (FS.reset fs)) { ino := h.ino, off := 0, buf := [] }
            (Action.event op Faults.ok :: rest)
    ∧ ((∀ c ∈ a :: chunks, LineAligned c) →
        emitted (tailRun (FS.append a (FS.reset fs)) h
            (Action.event op Faults.ok :: observed chunks))
          = some ((completeLines (a ++ chunks.flatten)).map SSE.log))
    ∧ emitted (createFileTailHandler (FS.single []) StartFaults.ok
        [app "hello\n", wr, Action.env FS.reset, wr, app "world\n", wr])
        = some [SSE.log (bytes "hello\n"), SSE.log (bytes "world\n")] := by
  obtain ⟨hra, hrd⟩ := FS.reset_active fs h.ino hact
  obtain ⟨haa, had, _, _⟩ := FS.append_active a (FS.reset fs) h.ino hra
  rw [hrd, List.nil_append] at had
  have htc : truncCheck (FS.append a (FS.reset fs)) Faults.ok h
      = { ino := h.ino, off := 0, buf := [] } := by
    simp [truncCheck, Faults.ok, had, hlt]
  have htc0 : truncCheck (FS.append a (FS.reset fs)) Faults.ok
      { ino := h.ino, off := 0, buf := [] } = { ino := h.ino, off := 0, buf := [] } := by
    simp [truncCheck, Faults.ok]
  have hev : onEvent (FS.append a (FS.reset fs)) Faults.ok op h
      = onEvent (FS.append a (FS.reset fs)) Faults.ok op { ino := h.ino, off := 0, buf := [] } :=
    onEvent_congr _ _ _ _ _ hw (htc.trans htc0.symm)
  have hres : onEvent (FS.append a (FS.reset fs)) Faults.ok op h
      = some ((completeLines a).map SSE.log,
          some { ino := h.ino, off := a.length, buf := [] }) := by
    rw [hev, onEvent_write _ _ _ _ hw hr, onWrite_clean _ _ rfl]
    simp [had]
  refine ⟨htc, ?_, hres, ?_, ?_, by decide⟩
  · simp [openLogFile, hra, hrd, Faults.ok]
  · rw [tailRun, tailRun, hev]
  · intro hal
    have hobs := tailRun_observed chunks (FS.append a (FS.reset fs))
      { ino := h.ino, off := a.length, buf := [] } haa rfl (by rw [had])
    have hl := linesPerChunk_aligned (a :: chunks) hal
    rw [linesPerChunk, List.flatten_cons] at hl
    rw [tailRun, hres]
    simp only [hobs, emitted, Option.map_some', ← List.map_append, hl]

/-- Truncation seen as a restart, at a concrete input: the file holds "hello\n", the session stands at
offset 6, the file is reset and "hi\n" is written. -/
theorem truncation_restarts_as_new_session_witness :
    onEvent (FS.append (bytes "hi\n") (FS.reset (FS.single (bytes "hello\n")))) Faults.ok
        Op.onlyWrite { ino := 0, off := 6, buf := [] }
      = some ((completeLines (bytes "hi\n")).map SSE.log,
          some { ino := 0, off := (bytes "hi\n").length, buf := [] }) :=
  (truncation_restarts_as_new_session (FS.single (bytes "hello\n")) { ino := 0, off := 6, buf := [] }
    (bytes "hi\n") Op.onlyWrite [] [] rfl rfl rfl (by decide)).2.2.1

/-! ## Further properties of the reset -/

/-- Reset at a plain path: for a file name without the characters `*`, `?`,
`[` and `\`, in any state of the log directory (names distinct), no call
failing,
`Glob` accepts the backup pattern, the path does not match it, and
`ResetLogFile` returns success leaving the active file at its path with zero
length if it existed (absent if not), every file matching the backup pattern
removed and every other file as it was. -/
theorem reset_at_plain_path (d : Disk) (path n : List Byte)
    (_hname : IsFileName path) (hnd : d.names.Nodup) (hplain : Plain path) :
    (Glob DiskFaults.ok (backupPattern path) d).isSome = true
    ∧ Match (backupPattern path) path = some false
    ∧ (ResetLogFile DiskFaults.ok path d).2 = none
    ∧ (ResetLogFile DiskFaults.ok path d).1.lookup n
        = if n = path then (d.lookup path).map (fun _ => [])
          else if Match (backupPattern path) n = some true then none
          else d.lookup n := by
  have hglob := Glob_plain d path hplain
  have hself := (Match_backupPattern path path hplain).2
  obtain ⟨ms, hms⟩ := Option.isSome_iff_exists.mp hglob
  refine ⟨hglob, hself, ?_, ?_⟩
  · rw [ResetLogFile_ok d path ms hnd hms]
  · rw [ResetLogFile_ok d path ms hnd hms]
    simp only
    exact lookup_reset_result d path n ms (Glob_ok_filter hms) (by rw [hself]; simp)

/-- Reset at a plain path, at the server's own log file in `sampleDisk`. -/
theorem reset_at_plain_path_witness :
    (ResetLogFile DiskFaults.ok ControlServerLogFile sampleDisk).2 = none
    ∧ (ResetLogFile DiskFaults.ok ControlServerLogFile sampleDisk).1.lookup
          (bytes "other.log")
        = if bytes "other.log" = ControlServerLogFile
          then (Disk.lookup sampleDisk ControlServerLogFile).map (fun _ => [])
          else if Match (backupPattern ControlServerLogFile) (bytes "other.log") = some true
          then none
          else Disk.lookup sampleDisk (bytes "other.log") :=
  (reset_at_plain_path sampleDisk ControlServerLogFile (bytes "other.log")
    ⟨by decide, by decide, by decide, by decide⟩
    (by decide) ⟨by decide, by decide, by decide, by decide⟩).2.2

end ControlServer
